import Mathlib

/-!
Verification development for the bookmarkly local-first data synchronization
engine.  The definitions below are a shallow embedding of the TypeScript
source (`src/lib/store.ts` current revision, the legacy `src/lib/store.ts`
kept under `src/src/lib/store.ts`, and `src/contexts/DataContext.tsx`).
Timestamps (`created_at`/`updated_at`, ISO-8601 strings compared through
`new Date(...)`) are modelled as natural numbers; `localStorage` blobs are
modelled as the decoded collections; the remote backend's per-call results
are passed in explicitly as `Except`/list values.
-/

namespace Bookmarkly

/-! ## Data model (`src/lib/types.ts`) -/

inductive LinkType where
  | Web
  | Video
  | Document
deriving DecidableEq, Repr

inductive LinkSubtype where
  | YouTube
  | Instagram
  | AI
  | Other
  | NoneSub
deriving DecidableEq, Repr

/-- A `Link` record.  `position` and `is_pinned` are optional in the source
type (legacy rows may lack them); `file_data` is the legacy inline payload
that `saveLocal` strips before persisting. -/
structure Link where
  id : String
  url : String
  name : String
  type : LinkType
  subtype : LinkSubtype
  category_id : Option String
  position : Option Int
  is_pinned : Option Bool
  created_at : Nat
  updated_at : Nat
  is_deleted : Bool
  file_name : Option String
  file_data : Option String
  file_url : Option String
  nts : String
  user_id : Option String
deriving DecidableEq, Repr

structure Category where
  id : String
  name : String
  type : LinkType
  subtype : LinkSubtype
  color : Option String
  position : Option Int
  is_pinned : Option Bool
  created_at : Nat
  updated_at : Nat
  is_deleted : Bool
  user_id : Option String
deriving DecidableEq, Repr

structure Note where
  id : String
  title : String
  body : String
  created_at : Nat
  updated_at : Nat
  is_deleted : Bool
  user_id : Option String
deriving DecidableEq, Repr

/-! ## Generic list helpers

The repository mutations follow the JavaScript idiom
`idx = all.findIndex(...); if (idx < 0) return; all[idx] = ...`:
the first element matching the predicate is replaced in place and nothing
happens when no element matches.  `updateFirst` captures exactly that, and
`updateFirstR` additionally returns the replaced element (the source pushes
it onto a `toUpdate` buffer). -/

def updateFirst (p : α → Bool) (f : α → α) : List α → List α
  | [] => []
  | x :: xs => if p x then f x :: xs else x :: updateFirst p f xs

def updateFirstR (p : α → Bool) (f : α → α) : List α → List α × Option α
  | [] => ([], none)
  | x :: xs =>
      if p x then (f x :: xs, some (f x))
      else
        let r := updateFirstR p f xs
        (x :: r.1, r.2)

/-- `Math.max(...list)` for a non-empty list, `-1` for the empty list —
exactly the `existing.length > 0 ? Math.max(...) : -1` computation in
`addCategory`. -/
def maxPosOf : List Int → Int
  | [] => -1
  | x :: xs => xs.foldl max x

/-! ## Change notification bus (`listeners: Set<Listener>`)

A JavaScript `Set` keyed by function reference: `add` is a no-op when the
element is already present (insertion order kept), `delete` removes the
element, and `notify` iterates the set invoking each registered listener
exactly once.  `notifyCount fn s` counts how many times one `notify()` call
invokes `fn`. -/

def subscribe [DecidableEq α] (fn : α) (s : List α) : List α :=
  if fn ∈ s then s else s ++ [fn]

def unsubscribe [DecidableEq α] (fn : α) (s : List α) : List α :=
  s.filter (fun x => x ≠ fn)

def notifyCount [DecidableEq α] (fn : α) (s : List α) : Nat :=
  s.count fn

/-! ## Durable local store (`loadLocal` / `saveLocal`)

`saveLocal` for the links key strips the legacy `file_data` payload before
persisting (`data.map(l => ({ ...l, file_data: undefined }))`). -/

def stripFileData (l : List Link) : List Link :=
  l.map (fun x => { x with file_data := none })

/-! ## Repository operations (current `src/lib/store.ts`, part_013)

Each operation is the pure read-modify-write core of the corresponding
source function, taking the decoded persisted collection and returning the
collection that gets persisted.  `now` stands for `new Date().toISOString()`
and fresh identities are passed in for `uuidv4()`. -/

def getLinks (all : List Link) : List Link :=
  (all.filter (fun l => !l.is_deleted)).map
    (fun l => { l with is_pinned := some (l.is_pinned.getD false) })

def getCategories (all : List Category) : List Category :=
  (all.filter (fun c => !c.is_deleted)).map
    (fun c => { c with is_pinned := some (c.is_pinned.getD false) })

def getNotes (all : List Note) : List Note :=
  all.filter (fun n => !n.is_deleted)

/-- `color: color || undefined` — the empty string is falsy in JavaScript. -/
def jsStrOpt (o : Option String) : Option String :=
  match o with
  | none => none
  | some s => if s = "" then none else some s

def addCategory (now : Nat) (newId : String) (userId : Option String)
    (name : String) (ty : LinkType) (st : LinkSubtype) (color : Option String)
    (all : List Category) : Category × List Category :=
  let existing := (getCategories all).filter
    (fun c => c.type == ty && c.subtype == st)
  let maxPos : Int := maxPosOf (existing.map (fun c => c.position.getD 0))
  let cat : Category :=
    { id := newId, name := name, type := ty, subtype := st,
      color := jsStrOpt color, position := some (maxPos + 1),
      is_pinned := some false, created_at := now, updated_at := now,
      is_deleted := false, user_id := userId }
  (cat, all ++ [cat])

def addLink (now : Nat) (newId : String) (userId : Option String)
    (url : String) (ty : LinkType) (st : LinkSubtype)
    (categoryId : Option String) (name : Option String)
    (fileName fileUrl : Option String)
    (all : List Link) : Link × List Link :=
  let link : Link :=
    { id := newId, url := url, name := (name.getD ""), type := ty,
      subtype := st, category_id := categoryId, position := some 0,
      is_pinned := some false, created_at := now, updated_at := now,
      is_deleted := false, file_name := fileName, file_data := none,
      file_url := fileUrl, nts := "", user_id := userId }
  (link, stripFileData (all ++ [link]))

def addNote (now : Nat) (newId : String) (userId : Option String)
    (title body : String) (all : List Note) : Note × List Note :=
  let note : Note :=
    { id := newId, title := title, body := body, created_at := now,
      updated_at := now, is_deleted := false, user_id := userId }
  (note, all ++ [note])

/-- The `Partial<Pick<Link, ...>>` update argument of `updateLink`: a field
holds `some v` when the caller supplied it (`updates.f !== undefined`). -/
structure LinkUpdates where
  url : Option String := none
  name : Option String := none
  category_id : Option (Option String) := none
  nts : Option String := none
  position : Option Int := none
  is_pinned : Option Bool := none
deriving DecidableEq, Repr

def applyLinkUpdates (u : LinkUpdates) (now : Nat) (l : Link) : Link :=
  { l with
    url := u.url.getD l.url,
    name := u.name.getD l.name,
    category_id := u.category_id.getD l.category_id,
    nts := u.nts.getD l.nts,
    position := match u.position with | none => l.position | some v => some v,
    is_pinned :=
      match u.is_pinned with | none => l.is_pinned | some v => some v,
    updated_at := now }

def updateLink (now : Nat) (id : String) (u : LinkUpdates)
    (all : List Link) : List Link :=
  stripFileData (updateFirst (fun l => l.id == id) (applyLinkUpdates u now) all)

structure CategoryUpdates where
  name : Option String := none
  color : Option String := none
  position : Option Int := none
  is_pinned : Option Bool := none
deriving DecidableEq, Repr

def applyCategoryUpdates (u : CategoryUpdates) (now : Nat) (c : Category) :
    Category :=
  { c with
    name := u.name.getD c.name,
    color := match u.color with | none => c.color | some v => some v,
    position := match u.position with | none => c.position | some v => some v,
    is_pinned :=
      match u.is_pinned with | none => c.is_pinned | some v => some v,
    updated_at := now }

def updateCategory (now : Nat) (id : String) (u : CategoryUpdates)
    (all : List Category) : List Category :=
  updateFirst (fun c => c.id == id) (applyCategoryUpdates u now) all

structure NoteUpdates where
  title : Option String := none
  body : Option String := none
deriving DecidableEq, Repr

def applyNoteUpdates (u : NoteUpdates) (now : Nat) (n : Note) : Note :=
  { n with
    title := u.title.getD n.title,
    body := u.body.getD n.body,
    updated_at := now }

def updateNote (now : Nat) (id : String) (u : NoteUpdates)
    (all : List Note) : List Note :=
  updateFirst (fun n => n.id == id) (applyNoteUpdates u now) all

def deleteLink (now : Nat) (id : String) (all : List Link) : List Link :=
  stripFileData (updateFirst (fun l => l.id == id)
    (fun l => { l with is_deleted := true, updated_at := now }) all)

def deleteCategory (now : Nat) (id : String) (all : List Category) :
    List Category :=
  updateFirst (fun c => c.id == id)
    (fun c => { c with is_deleted := true, updated_at := now }) all

def deleteNote (now : Nat) (id : String) (all : List Note) : List Note :=
  updateFirst (fun n => n.id == id)
    (fun n => { n with is_deleted := true, updated_at := now }) all

/-- One iteration of the `orderedIds.forEach((id, index) => ...)` loop
shared verbatim by `reorderLinks` and `reorderCategories`: find the first
entity with the given id, apply the index-dependent mutation (set
`position = index`, re-stamp `updated_at`), and append the mutated record
to the `toUpdate` buffer. -/
def reorderStep (key : α → String) (g : Nat → α → α)
    (acc : List α × List α) (iid : Nat × String) : List α × List α :=
  let r := updateFirstR (fun x => key x == iid.2) (g iid.1) acc.1
  (r.1, acc.2 ++ r.2.toList)

def reorderAll (key : α → String) (g : Nat → α → α)
    (orderedIds : List String) (all : List α) : List α × List α :=
  orderedIds.enum.foldl (reorderStep key g) (all, [])

/-- `reorderLinks(orderedIds)`: the first component is the persisted
collection, the second the `toUpdate` buffer of entities subsequently
upserted to the remote. -/
def reorderLinks (now : Nat) (orderedIds : List String) (all : List Link) :
    List Link × List Link :=
  let r := reorderAll Link.id
    (fun i l => { l with position := some (Int.ofNat i), updated_at := now })
    orderedIds all
  (stripFileData r.1, r.2)

def reorderCategories (now : Nat) (orderedIds : List String)
    (all : List Category) : List Category × List Category :=
  reorderAll Category.id
    (fun i c => { c with position := some (Int.ofNat i), updated_at := now })
    orderedIds all

/-! ## Sync status and the reconciliation engine (`pullFromCloud`) -/

inductive SyncState where
  | idle
  | syncing
  | success
  | error
deriving DecidableEq, Repr

structure SyncStatus where
  lastSync : Option Nat
  status : SyncState
  message : String
deriving DecidableEq, Repr

/-- The three persisted partitions, decoded. -/
structure LocalState where
  links : List Link
  categories : List Category
  nots : List Note
deriving DecidableEq, Repr

/-- Result of one `pullFromCloud` run: the persisted local state, the final
sync status, and the `local_only` entities upserted to the remote during
the pass. -/
structure PullResult where
  state : LocalState
  status : SyncStatus
  pushedCats : List Category
  pushedLinks : List Link
  pushedNotes : List Note
deriving DecidableEq, Repr

def defaultPinCat (c : Category) : Category :=
  { c with is_pinned := some (c.is_pinned.getD false) }

def defaultPinLink (l : Link) : Link :=
  { l with is_pinned := some (l.is_pinned.getD false) }

/-- `pullFromCloud`.  The three `supabase...select` results are passed in as
`Except` values (an `error` value models a failed fetch, whose message the
source turns into a thrown `Error` caught at the bottom of the function).
The function never throws past its boundary: every path returns a
`PullResult`. -/
def pullFromCloud (now : Nat) (userId : Option String) (status0 : SyncStatus)
    (catRes : Except String (List Category))
    (linkRes : Except String (List Link))
    (noteRes : Except String (List Note))
    (st : LocalState) : PullResult :=
  match userId with
  | none =>
      { state := st,
        status := { lastSync := none, status := .error,
                    message := "Not signed in" },
        pushedCats := [], pushedLinks := [], pushedNotes := [] }
  | some _ =>
    match catRes, linkRes, noteRes with
    | .error m, _, _ =>
        { state := st,
          status := { lastSync := status0.lastSync, status := .error,
                      message := "Sync failed: Categories: " ++ m },
          pushedCats := [], pushedLinks := [], pushedNotes := [] }
    | .ok _, .error m, _ =>
        { state := st,
          status := { lastSync := status0.lastSync, status := .error,
                      message := "Sync failed: Links: " ++ m },
          pushedCats := [], pushedLinks := [], pushedNotes := [] }
    | .ok _, .ok _, .error m =>
        { state := st,
          status := { lastSync := status0.lastSync, status := .error,
                      message := "Sync failed: Notes: " ++ m },
          pushedCats := [], pushedLinks := [], pushedNotes := [] }
    | .ok cs, .ok ls, .ok ns =>
        let remoteCats := cs.map defaultPinCat
        let remoteLinks := ls.map defaultPinLink
        let remoteNotes := ns
        let localOnlyCats := st.categories.filter
          (fun c => !(remoteCats.any (fun r => r.id == c.id)))
        let localOnlyLinks := st.links.filter
          (fun l => !(remoteLinks.any (fun r => r.id == l.id)))
        let localOnlyNotes := st.nots.filter
          (fun n => !(remoteNotes.any (fun r => r.id == n.id)))
        let pushCount :=
          localOnlyCats.length + localOnlyLinks.length + localOnlyNotes.length
        let total :=
          (remoteCats.filter (fun c => !c.is_deleted)).length +
          (remoteLinks.filter (fun l => !l.is_deleted)).length +
          (remoteNotes.filter (fun n => !n.is_deleted)).length
        let msg := "Synced! " ++ toString total ++ " items" ++
          (if pushCount > 0 then ", " ++ toString pushCount ++ " pushed"
           else "")
        { state :=
            { links := stripFileData (remoteLinks ++ localOnlyLinks),
              categories := remoteCats ++ localOnlyCats,
              nots := remoteNotes ++ localOnlyNotes },
          status := { lastSync := some now, status := .success,
                      message := msg },
          pushedCats := localOnlyCats,
          pushedLinks := localOnlyLinks,
          pushedNotes := localOnlyNotes }

/-! ## The full client as a transition system

The session tracker (`supabase.auth.onAuthStateChange` handler), the
repository mutations, and the reconciliation pass, together with the remote
tables, as one deterministic step function over labelled actions.  Remote
upserts replace the row with the conflicting `id` (the `onConflict: 'id'`
upsert) and always stamp `user_id` with the current owner; remote selects
filter by the `user_id` column. -/

structure SysState where
  links : List Link
  categories : List Category
  nots : List Note
  cachedUserId : Option String
  remoteLinks : List Link
  remoteCats : List Category
  remoteNotes : List Note

def upsertRow (idOf : α → String) (row : α) (table : List α) : List α :=
  if table.any (fun r => idOf r == idOf row)
  then updateFirst (fun r => idOf r == idOf row) (fun _ => row) table
  else table ++ [row]

def remoteUpsertLink (u : String) (l : Link) (table : List Link) : List Link :=
  upsertRow Link.id { l with user_id := some u, file_data := none } table

def remoteUpsertCat (u : String) (c : Category) (table : List Category) :
    List Category :=
  upsertRow Category.id { c with user_id := some u } table

def remoteUpsertNote (u : String) (n : Note) (table : List Note) :
    List Note :=
  upsertRow Note.id { n with user_id := some u } table

def remoteUpsertLinks (u : String) (ls : List Link) (table : List Link) :
    List Link :=
  ls.foldl (fun t l => remoteUpsertLink u l t) table

def remoteUpsertCats (u : String) (cs : List Category)
    (table : List Category) : List Category :=
  cs.foldl (fun t c => remoteUpsertCat u c t) table

def remoteUpsertNotes (u : String) (ns : List Note) (table : List Note) :
    List Note :=
  ns.foldl (fun t n => remoteUpsertNote u n t) table

inductive Act where
  | authChange (session : Option String)
  | addLinkA (now : Nat) (newId : String) (url : String) (ty : LinkType)
      (st : LinkSubtype) (categoryId : Option String) (name : Option String)
      (fileName fileUrl : Option String)
  | addCategoryA (now : Nat) (newId : String) (name : String) (ty : LinkType)
      (st : LinkSubtype) (color : Option String)
  | addNoteA (now : Nat) (newId : String) (title body : String)
  | updateLinkA (now : Nat) (id : String) (u : LinkUpdates)
  | updateCategoryA (now : Nat) (id : String) (u : CategoryUpdates)
  | updateNoteA (now : Nat) (id : String) (u : NoteUpdates)
  | deleteLinkA (now : Nat) (id : String)
  | deleteCategoryA (now : Nat) (id : String)
  | deleteNoteA (now : Nat) (id : String)
  | reorderLinksA (now : Nat) (ids : List String)
  | reorderCategoriesA (now : Nat) (ids : List String)
  | pull (now : Nat)
deriving DecidableEq

/-- After a local mutation the repository calls the per-entity upsert when a
user is signed in (`if (userId) { await upsertLink(...); }`). -/
def syncLinksIfAuthed (s : SysState) (changed : List Link) : SysState :=
  match s.cachedUserId with
  | none => s
  | some u => { s with remoteLinks := remoteUpsertLinks u changed s.remoteLinks }

def syncCatsIfAuthed (s : SysState) (changed : List Category) : SysState :=
  match s.cachedUserId with
  | none => s
  | some u => { s with remoteCats := remoteUpsertCats u changed s.remoteCats }

def syncNotesIfAuthed (s : SysState) (changed : List Note) : SysState :=
  match s.cachedUserId with
  | none => s
  | some u =>
      { s with remoteNotes := remoteUpsertNotes u changed s.remoteNotes }

/-- The reconciliation pass as observed at the system level: the three
fetches return the remote rows of the current owner (the
`.eq('user_id', userId)` filters), the merge runs, and the pushed
local-only entities are upserted into the remote tables. -/
def pullStep (now : Nat) (u : String) (s : SysState) : SysState :=
  let res := pullFromCloud now (some u)
    { lastSync := none, status := .idle, message := "" }
    (.ok (s.remoteCats.filter (fun c => c.user_id == some u)))
    (.ok (s.remoteLinks.filter (fun l => l.user_id == some u)))
    (.ok (s.remoteNotes.filter (fun n => n.user_id == some u)))
    { links := s.links, categories := s.categories, nots := s.nots }
  { s with
    links := res.state.links,
    categories := res.state.categories,
    nots := res.state.nots,
    remoteCats := remoteUpsertCats u res.pushedCats s.remoteCats,
    remoteLinks := remoteUpsertLinks u res.pushedLinks s.remoteLinks,
    remoteNotes := remoteUpsertNotes u res.pushedNotes s.remoteNotes }

def step (a : Act) (s : SysState) : SysState :=
  match a with
  | .authChange sess =>
      -- onAuthStateChange: cache the new owner; on owner -> none erase the
      -- three partitions (sign-in only schedules a later `pull` action).
      if sess = none ∧ s.cachedUserId ≠ none then
        { s with cachedUserId := sess, links := [], categories := [],
                 nots := [] }
      else
        { s with cachedUserId := sess }
  | .addLinkA now newId url ty st catId name fileName fileUrl =>
      let r := addLink now newId s.cachedUserId url ty st catId name
        fileName fileUrl s.links
      syncLinksIfAuthed { s with links := r.2 } [r.1]
  | .addCategoryA now newId name ty st color =>
      let r := addCategory now newId s.cachedUserId name ty st color
        s.categories
      syncCatsIfAuthed { s with categories := r.2 } [r.1]
  | .addNoteA now newId title body =>
      let r := addNote now newId s.cachedUserId title body s.nots
      syncNotesIfAuthed { s with nots := r.2 } [r.1]
  | .updateLinkA now id u =>
      let r := updateFirstR (fun l => l.id == id) (applyLinkUpdates u now)
        s.links
      syncLinksIfAuthed { s with links := stripFileData r.1 } r.2.toList
  | .updateCategoryA now id u =>
      let r := updateFirstR (fun c => c.id == id)
        (applyCategoryUpdates u now) s.categories
      syncCatsIfAuthed { s with categories := r.1 } r.2.toList
  | .updateNoteA now id u =>
      let r := updateFirstR (fun n => n.id == id) (applyNoteUpdates u now)
        s.nots
      syncNotesIfAuthed { s with nots := r.1 } r.2.toList
  | .deleteLinkA now id =>
      let r := updateFirstR (fun l => l.id == id)
        (fun l => { l with is_deleted := true, updated_at := now }) s.links
      syncLinksIfAuthed { s with links := stripFileData r.1 } r.2.toList
  | .deleteCategoryA now id =>
      let r := updateFirstR (fun c => c.id == id)
        (fun c => { c with is_deleted := true, updated_at := now })
        s.categories
      syncCatsIfAuthed { s with categories := r.1 } r.2.toList
  | .deleteNoteA now id =>
      let r := updateFirstR (fun n => n.id == id)
        (fun n => { n with is_deleted := true, updated_at := now }) s.nots
      syncNotesIfAuthed { s with nots := r.1 } r.2.toList
  | .reorderLinksA now ids =>
      let r := reorderLinks now ids s.links
      syncLinksIfAuthed { s with links := r.1 } r.2
  | .reorderCategoriesA now ids =>
      let r := reorderCategories now ids s.categories
      syncCatsIfAuthed { s with categories := r.1 } r.2
  | .pull now =>
      match s.cachedUserId with
      | none => s
      | some u => pullStep now u s

def run (acts : List Act) (s : SysState) : SysState :=
  acts.foldl (fun st a => step a st) s

/-! ## Legacy store (`src/src/lib/store.ts`) -/

namespace Legacy

/-- JavaScript `Map<string, T>` as an insertion-ordered association list:
`set` on an existing key replaces the value in place, otherwise appends. -/
def mapInsert (k : String) (v : α) : List (String × α) → List (String × α)
  | [] => [(k, v)]
  | p :: rest => if p.1 = k then (k, v) :: rest else p :: mapInsert k v rest

def mapGet (k : String) : List (String × α) → Option α
  | [] => none
  | p :: rest => if p.1 = k then some p.2 else mapGet k rest

/-- `mergeArrays<T extends { id, updated_at }>` from the legacy store,
generic over the two projections: locals are inserted first, then a remote
copy replaces the entry when no local exists or when
`remote.updated_at >= local.updated_at`. -/
def mergeArrays (idOf : α → String) (updOf : α → Nat)
    (lcl rmt : List α) : List α :=
  let m0 := lcl.foldl (fun m item => mapInsert (idOf item) item m) []
  let m1 := rmt.foldl (fun m item =>
    match mapGet (idOf item) m with
    | none => mapInsert (idOf item) item m
    | some existing =>
        if updOf existing ≤ updOf item then mapInsert (idOf item) item m
        else m) m0
  m1.map Prod.snd

end Legacy

/-! ## `loadLocal` — the persisted-blob decode dispatch

The platform pieces (`localStorage.getItem`, `JSON.parse`) are external
collaborators; `JSON.parse` is passed in as a function returning `Except`
(an `error` models a thrown parse exception).  `part_013`'s `loadLocal`
returns `[]` for an absent/empty blob, a parse failure, or a parsed value
that is not an array, and the array's elements otherwise.  The legacy
`loadLocal` (`return raw ? JSON.parse(raw) : []`) has no array check: the
parsed value flows out unchanged. -/

inductive Json where
  | null
  | bool (b : Bool)
  | num (n : Int)
  | str (s : String)
  | arr (elems : List Json)
  | obj (fields : List (String × Json))

def loadLocal (parse : String → Except Unit Json) (raw : Option String) :
    List Json :=
  match raw with
  | none => []
  | some s =>
      if s = "" then []
      else
        match parse s with
        | .error _ => []
        | .ok (.arr xs) => xs
        | .ok _ => []

namespace Legacy

def loadLocal (parse : String → Except Unit Json) (raw : Option String) :
    Json :=
  match raw with
  | none => .arr []
  | some s =>
      if s = "" then .arr []
      else
        match parse s with
        | .error _ => .arr []
        | .ok v => v

end Legacy

/-! ## `DataContext.removeCategory` (in-memory React state)

`removeCategory` filters the deleted category out of the `categories`
state and maps every link whose `category_id` matches to `category_id:
null`.  Its `Link`/`Category` shapes differ from the store's; only the
fields the operation touches matter here, so the store shapes are reused. -/

structure DCState where
  categories : List Category
  links : List Link
deriving DecidableEq, Repr

def removeCategory (id : String) (s : DCState) : DCState :=
  { categories := s.categories.filter (fun c => c.id ≠ id),
    links := s.links.map (fun l =>
      if l.category_id == some id then { l with category_id := none } else l) }

/-- `deleteCategory` at the whole-store level: only the categories
partition is read and written; the links partition is not touched by the
source function at all. -/
def deleteCategoryOp (now : Nat) (id : String) (st : LocalState) :
    LocalState :=
  { st with categories := deleteCategory now id st.categories }

/-! ## Sample entities used by concrete counterexamples and witnesses -/

def baseLink : Link :=
  { id := "l1", url := "https://a.example", name := "a", type := .Web,
    subtype := .NoneSub, category_id := none, position := some 0,
    is_pinned := some false, created_at := 1, updated_at := 1,
    is_deleted := false, file_name := none, file_data := none,
    file_url := none, nts := "", user_id := none }

def baseCat : Category :=
  { id := "c1", name := "Work", type := .Web, subtype := .NoneSub,
    color := none, position := some 0, is_pinned := some false,
    created_at := 1, updated_at := 1, is_deleted := false, user_id := none }

def baseNote : Note :=
  { id := "n1", title := "t", body := "b", created_at := 1, updated_at := 1,
    is_deleted := false, user_id := none }

/-! ## Helper lemmas about the list combinators -/

theorem updateFirst_cons (p : α → Bool) (f : α → α) (a : α) (t : List α) :
    updateFirst p f (a :: t) =
      if p a then f a :: t else a :: updateFirst p f t := rfl

theorem length_updateFirst (p : α → Bool) (f : α → α) :
    ∀ l : List α, (updateFirst p f l).length = l.length := by
  intro l
  induction l with
  | nil => rfl
  | cons a t ih =>
      rw [updateFirst_cons]
      by_cases h : p a
      · simp [h]
      · simp [h, ih]

theorem map_updateFirst (p : α → Bool) (f : α → α) (g : α → β)
    (hg : ∀ y, g (f y) = g y) :
    ∀ l : List α, (updateFirst p f l).map g = l.map g := by
  intro l
  induction l with
  | nil => rfl
  | cons a t ih =>
      rw [updateFirst_cons]
      by_cases h : p a
      · simp [h, hg]
      · simp [h, ih]

theorem mem_updateFirst_of_neg (p : α → Bool) (f : α → α) (x : α)
    (hpx : p x = false) :
    ∀ l : List α, x ∈ l → x ∈ updateFirst p f l := by
  intro l
  induction l with
  | nil => intro h; cases h
  | cons a t ih =>
      intro hx
      rw [updateFirst_cons]
      rcases List.mem_cons.mp hx with h | h
      · subst h
        simp [hpx]
      · by_cases hpa : p a
        · simp [hpa, h]
        · simp [hpa]
          exact Or.inr (ih h)

theorem mem_of_mem_updateFirst (p : α → Bool) (f : α → α) (x : α) :
    ∀ l : List α, x ∈ updateFirst p f l →
      x ∈ l ∨ ∃ y, y ∈ l ∧ p y = true ∧ x = f y := by
  intro l
  induction l with
  | nil => intro h; cases h
  | cons a t ih =>
      rw [updateFirst_cons]
      by_cases hpa : p a
      · simp only [hpa, if_true]
        intro hx
        rcases List.mem_cons.mp hx with h | h
        · exact Or.inr ⟨a, List.mem_cons_self a t, hpa, h⟩
        · exact Or.inl (List.mem_cons_of_mem a h)
      · simp only [hpa, if_false]
        intro hx
        rcases List.mem_cons.mp hx with h | h
        · exact Or.inl (h ▸ List.mem_cons_self a t)
        · rcases ih h with h' | ⟨y, hy, hpy, hxy⟩
          · exact Or.inl (List.mem_cons_of_mem a h')
          · exact Or.inr ⟨y, List.mem_cons_of_mem a hy, hpy, hxy⟩

theorem updateFirst_of_forall_neg (p : α → Bool) (f : α → α) :
    ∀ l : List α, (∀ y ∈ l, p y = false) → updateFirst p f l = l := by
  intro l
  induction l with
  | nil => intro _; rfl
  | cons a t ih =>
      intro h
      rw [updateFirst_cons]
      have ha := h a (List.mem_cons_self a t)
      simp [ha]
      exact ih (fun y hy => h y (List.mem_cons_of_mem a hy))

theorem updateFirst_split (p : α → Bool) (f : α → α) :
    ∀ l : List α, (∃ x ∈ l, p x = true) →
      ∃ l1 x l2, l = l1 ++ x :: l2 ∧ p x = true ∧
        (∀ y ∈ l1, p y = false) ∧
        updateFirst p f l = l1 ++ f x :: l2 := by
  intro l
  induction l with
  | nil => rintro ⟨x, hx, _⟩; cases hx
  | cons a t ih =>
      intro hex
      by_cases hpa : p a
      · refine ⟨[], a, t, rfl, hpa, ?_, ?_⟩
        · intro y hy
          cases hy
        · rw [updateFirst_cons]
          simp [hpa]
      · obtain ⟨x, hx, hpx⟩ := hex
        have hxt : x ∈ t := by
          rcases List.mem_cons.mp hx with h | h
          · subst h; exact absurd hpx hpa
          · exact h
        obtain ⟨l1, x', l2, he, hpx', hneg, hupd⟩ := ih ⟨x, hxt, hpx⟩
        refine ⟨a :: l1, x', l2, by rw [he]; rfl, hpx', ?_, ?_⟩
        · intro y hy
          rcases List.mem_cons.mp hy with h | h
          · subst h; exact Bool.eq_false_iff.mpr hpa
          · exact hneg y h
        · rw [updateFirst_cons]
          simp [hpa, hupd]

theorem updateFirstR_eq (p : α → Bool) (f : α → α) :
    ∀ l : List α, updateFirstR p f l =
      (updateFirst p f l, (l.find? p).map f) := by
  intro l
  induction l with
  | nil => rfl
  | cons a t ih =>
      by_cases hpa : p a
      · simp [updateFirstR, updateFirst_cons, hpa, List.find?_cons_of_pos _ hpa]
      · have hpa' : p a = false := Bool.eq_false_iff.mpr hpa
        simp [updateFirstR, updateFirst_cons, hpa',
          List.find?_cons_of_neg _ hpa, ih]

theorem find?_of_split (p : α → Bool) (l1 : List α) (x : α) (l2 : List α)
    (hneg : ∀ y ∈ l1, p y = false) (hpx : p x = true) :
    List.find? p (l1 ++ x :: l2) = some x := by
  induction l1 with
  | nil =>
      simp only [List.nil_append]
      exact List.find?_cons_of_pos _ hpx
  | cons a t ih =>
      have ha := hneg a (List.mem_cons_self a t)
      have : List.find? p ((a :: t) ++ x :: l2) = List.find? p (t ++ x :: l2) := by
        simp [List.find?_cons_of_neg, ha]
      rw [this]
      exact ih (fun y hy => hneg y (List.mem_cons_of_mem a hy))

/-- Under key-uniqueness, a list member whose key matches is unique. -/
theorem unique_of_nodup_keys (key : α → String) (l : List α)
    (h : (l.map key).Nodup) (x y : α) (hx : x ∈ l) (hy : y ∈ l)
    (hk : key x = key y) : x = y :=
  List.inj_on_of_nodup_map h hx hy hk

theorem stripFileData_map_id (l : List Link) :
    (stripFileData l).map Link.id = l.map Link.id := by
  simp [stripFileData, Function.comp]

theorem link_strip_eq (x : Link) (h : x.file_data = none) :
    ({ x with file_data := none } : Link) = x := by
  cases x
  simp_all

theorem stripFileData_clean (l : List Link)
    (h : ∀ x ∈ l, x.file_data = none) : stripFileData l = l := by
  induction l with
  | nil => rfl
  | cons a t ih =>
      have ha := h a (List.mem_cons_self a t)
      simp only [stripFileData, List.map_cons]
      rw [link_strip_eq a ha]
      have := ih (fun x hx => h x (List.mem_cons_of_mem a hx))
      simp only [stripFileData] at this
      rw [this]

theorem mem_stripFileData_of_mem (l : List Link) (x : Link) (hx : x ∈ l)
    (hclean : x.file_data = none) : x ∈ stripFileData l := by
  have : ({ x with file_data := none } : Link) ∈ stripFileData l :=
    List.mem_map.mpr ⟨x, hx, rfl⟩
  rwa [link_strip_eq x hclean] at this

/-! ## Claim C10 -/

/-- Claim C10: listeners are held in a `Set`, so subscribing the same
listener twice registers it only once (one `notify()` invokes it exactly
once), and running the returned unsubscribe closure removes it entirely,
after which `notify()` never invokes it. -/
theorem subscribe_set_semantics {α : Type} [DecidableEq α]
    (s : List α) (fn : α) (h : s.Nodup) :
    subscribe fn (subscribe fn s) = subscribe fn s ∧
    notifyCount fn (subscribe fn (subscribe fn s)) = 1 ∧
    notifyCount fn (unsubscribe fn (subscribe fn (subscribe fn s))) = 0 := by
  have hmem : fn ∈ subscribe fn s := by
    by_cases hf : fn ∈ s
    · have he : subscribe fn s = s := if_pos hf
      rw [he]; exact hf
    · have he : subscribe fn s = s ++ [fn] := if_neg hf
      rw [he]
      exact List.mem_append_right s (List.mem_singleton.mpr rfl)
  have hidem : subscribe fn (subscribe fn s) = subscribe fn s := if_pos hmem
  refine ⟨hidem, ?_, ?_⟩
  · rw [hidem]
    by_cases hf : fn ∈ s
    · have he : subscribe fn s = s := if_pos hf
      rw [he]
      exact List.count_eq_one_of_mem h hf
    · have he : subscribe fn s = s ++ [fn] := if_neg hf
      rw [he]
      have h0 : s.count fn = 0 := List.count_eq_zero_of_not_mem hf
      simp [notifyCount, List.count_append, h0]
  · have : fn ∉ unsubscribe fn (subscribe fn (subscribe fn s)) := by
      intro hc
      have := List.mem_filter.mp hc
      simp at this
    exact List.count_eq_zero_of_not_mem this

/-- Witness for C10 at a concrete listener set. -/
theorem subscribe_set_semantics_witness :
    subscribe 5 (subscribe 5 [0, 1]) = subscribe 5 [0, 1] ∧
    notifyCount 5 (subscribe 5 (subscribe 5 [0, 1])) = 1 ∧
    notifyCount 5 (unsubscribe 5 (subscribe 5 (subscribe 5 [0, 1]))) = 0 :=
  subscribe_set_semantics [0, 1] 5 (by decide)

/-! ## Claim C9 -/

/-- Parse function used by the C9 witness. -/
def parseArr1 : String → Except Unit Json :=
  fun _ => .ok (.arr [.num 1])

/-- Parse function used by the C9 counterexample: every blob parses to a
JSON object, which is valid JSON but not an array. -/
def parseObj : String → Except Unit Json :=
  fun _ => .ok (.obj [])

/-- Counterexample to C9 as stated: the legacy `loadLocal`
(`return raw ? JSON.parse(raw) : []`, `src/src/lib/store.ts` lines 10-17,
one of the two cited implementations) does not return an empty sequence
when the persisted blob parses to a non-array JSON value — the parsed
value flows out unchanged. -/
theorem loadLocal_legacy_nonarray_counterexample :
    Legacy.loadLocal parseObj (some "x") = Json.obj [] ∧
    Json.obj [] ≠ Json.arr [] :=
  ⟨rfl, fun h => Json.noConfusion h⟩

/-- Claim C9, amended: the current `loadLocal` (part_013) returns the
parsed elements for a valid JSON-array blob and an empty sequence for an
absent key, a parse failure, or a non-array parse; the legacy `loadLocal`
returns the empty array only for an absent key or a parse failure, and
passes a parsed non-array value through unchanged. -/
theorem loadLocal_dispatch (parse : String → Except Unit Json) (s : String)
    (xs : List Json) (v : Json) :
    (loadLocal parse none = [] ∧ Legacy.loadLocal parse none = .arr []) ∧
    (parse s = .error () → loadLocal parse (some s) = [] ∧
      Legacy.loadLocal parse (some s) = .arr []) ∧
    (s ≠ "" → parse s = .ok (.arr xs) → loadLocal parse (some s) = xs) ∧
    (s ≠ "" → parse s = .ok v → (∀ ys, v ≠ .arr ys) →
      loadLocal parse (some s) = [] ∧ Legacy.loadLocal parse (some s) = v) := by
  refine ⟨⟨rfl, rfl⟩, ?_, ?_, ?_⟩
  · intro hp
    constructor
    · unfold loadLocal
      by_cases hs : s = ""
      · simp [hs]
      · simp [hs, hp]
    · unfold Legacy.loadLocal
      by_cases hs : s = ""
      · simp [hs]
      · simp [hs, hp]
  · intro hs hp
    unfold loadLocal
    simp [hs, hp]
  · intro hs hp hv
    constructor
    · unfold loadLocal
      cases v with
      | arr ys => exact absurd rfl (hv ys)
      | null => simp [hs, hp]
      | bool b => simp [hs, hp]
      | num n => simp [hs, hp]
      | str t => simp [hs, hp]
      | obj fs => simp [hs, hp]
    · unfold Legacy.loadLocal
      simp [hs, hp]

/-- Witness for C9 at a concrete parse function and blob. -/
theorem loadLocal_dispatch_witness :
    loadLocal parseArr1 (some "x") = [Json.num 1] :=
  (loadLocal_dispatch parseArr1 "x" [Json.num 1] Json.null).2.2.1
    (by decide) rfl

/-! ## Claim C8 -/

/-- Claim C8: when any of the three remote fetches of a reconciliation
pass fails, `pullFromCloud` returns (it never throws past its boundary —
the embedding is a total function) an `error` status carrying the
underlying message, and the local store is left untouched: no partial
merge is persisted. -/
theorem pullFromCloud_fetch_error (now : Nat) (u : String)
    (status0 : SyncStatus) (catRes : Except String (List Category))
    (linkRes : Except String (List Link))
    (noteRes : Except String (List Note)) (st : LocalState) :
    (∀ m, catRes = .error m →
      pullFromCloud now (some u) status0 catRes linkRes noteRes st =
        { state := st,
          status := { lastSync := status0.lastSync, status := .error,
                      message := "Sync failed: Categories: " ++ m },
          pushedCats := [], pushedLinks := [], pushedNotes := [] }) ∧
    (∀ cs m, catRes = .ok cs → linkRes = .error m →
      pullFromCloud now (some u) status0 catRes linkRes noteRes st =
        { state := st,
          status := { lastSync := status0.lastSync, status := .error,
                      message := "Sync failed: Links: " ++ m },
          pushedCats := [], pushedLinks := [], pushedNotes := [] }) ∧
    (∀ cs ls m, catRes = .ok cs → linkRes = .ok ls → noteRes = .error m →
      pullFromCloud now (some u) status0 catRes linkRes noteRes st =
        { state := st,
          status := { lastSync := status0.lastSync, status := .error,
                      message := "Sync failed: Notes: " ++ m },
          pushedCats := [], pushedLinks := [], pushedNotes := [] }) := by
  refine ⟨?_, ?_, ?_⟩
  · rintro m rfl
    rfl
  · rintro cs m rfl rfl
    rfl
  · rintro cs ls m rfl rfl rfl
    rfl

/-- Witness for C8: a concrete failing links fetch leaves the concrete
local store untouched and reports the error. -/
theorem pullFromCloud_fetch_error_witness :
    pullFromCloud 7 (some "u")
      { lastSync := some 3, status := .idle, message := "" }
      (.ok []) (.error "boom") (.ok [])
      { links := [baseLink], categories := [baseCat], nots := [baseNote] } =
      { state :=
          { links := [baseLink], categories := [baseCat],
            nots := [baseNote] },
        status := { lastSync := some 3, status := .error,
                    message := "Sync failed: Links: " ++ "boom" },
        pushedCats := [], pushedLinks := [], pushedNotes := [] } :=
  (pullFromCloud_fetch_error 7 "u"
    { lastSync := some 3, status := .idle, message := "" }
    (.ok []) (.error "boom") (.ok [])
    { links := [baseLink], categories := [baseCat], nots := [baseNote] }).2.1
    [] "boom" rfl rfl

/-! ## Facts about `maxPosOf` (the `Math.max(...) : -1` computation) -/

theorem le_foldl_max (a : Int) : ∀ xs : List Int, a ≤ xs.foldl max a := by
  intro xs
  induction xs generalizing a with
  | nil => exact le_refl a
  | cons b t ih =>
      simp only [List.foldl_cons]
      exact le_trans (le_max_left a b) (ih (max a b))

theorem mem_le_foldl_max (a y : Int) :
    ∀ xs : List Int, y ∈ xs → y ≤ xs.foldl max a := by
  intro xs
  induction xs generalizing a with
  | nil => intro h; cases h
  | cons b t ih =>
      intro hy
      simp only [List.foldl_cons]
      rcases List.mem_cons.mp hy with h | h
      · subst h
        exact le_trans (le_max_right a y) (le_foldl_max (max a y) t)
      · exact ih (max a b) h

theorem foldl_max_mem (a : Int) :
    ∀ xs : List Int, xs.foldl max a = a ∨ xs.foldl max a ∈ xs := by
  intro xs
  induction xs generalizing a with
  | nil => exact Or.inl rfl
  | cons b t ih =>
      simp only [List.foldl_cons]
      rcases ih (max a b) with h | h
      · rcases max_choice a b with hm | hm
        · exact Or.inl (by rw [h, hm])
        · exact Or.inr (by rw [h, hm]; exact List.mem_cons_self b t)
      · exact Or.inr (List.mem_cons_of_mem b h)

theorem le_maxPosOf (xs : List Int) (y : Int) (hy : y ∈ xs) :
    y ≤ maxPosOf xs := by
  cases xs with
  | nil => cases hy
  | cons z zs =>
      simp only [maxPosOf]
      rcases List.mem_cons.mp hy with h | h
      · subst h; exact le_foldl_max y zs
      · exact mem_le_foldl_max z y zs h

theorem maxPosOf_mem (xs : List Int) (h : xs ≠ []) : maxPosOf xs ∈ xs := by
  cases xs with
  | nil => exact absurd rfl h
  | cons z zs =>
      simp only [maxPosOf]
      rcases foldl_max_mem z zs with h' | h'
      · rw [h']; exact List.mem_cons_self z zs
      · exact List.mem_cons_of_mem z h'

/-! ## Claim C4 -/

/-- Counterexample to C4 as stated: `addLink` always assigns `position = 0`
(the source hard-codes `position: 0`), even when the same type/subtype
partition already holds a non-deleted link with position 5 — the claimed
value would be 6. -/
theorem addLink_position_counterexample :
    (addLink 10 "new2" none "https://b" .Web .NoneSub none none none none
        [{ baseLink with position := some 5 }]).1.position = some 0 ∧
    ((getLinks [{ baseLink with position := some 5 }]).filter
        (fun l => l.type == LinkType.Web && l.subtype == LinkSubtype.NoneSub)
      ).map (fun l => l.position.getD 0) = [5] ∧
    (some 0 : Option Int) ≠ some (5 + 1) := by
  decide

/-- Claim C4, amended: `addCategory` assigns `position` as one past the
maximum position among existing non-deleted categories of the same
type/subtype partition (0 when that partition is empty); `addLink`,
however, always assigns `position = 0` regardless of the existing links. -/
theorem add_assigns_position (now : Nat) (newId : String)
    (userId : Option String) (nm url : String) (ty : LinkType)
    (st : LinkSubtype) (color : Option String)
    (categoryId fileName fileUrl nameL : Option String)
    (allC : List Category) (allL : List Link) :
    (addLink now newId userId url ty st categoryId nameL fileName fileUrl
      allL).1.position = some 0 ∧
    ((getCategories allC).filter
        (fun c => c.type == ty && c.subtype == st) = [] →
      (addCategory now newId userId nm ty st color allC).1.position =
        some 0) ∧
    (∀ x ∈ (getCategories allC).filter
        (fun c => c.type == ty && c.subtype == st),
      x.position.getD 0 <
        (addCategory now newId userId nm ty st color allC).1.position.getD
          0) ∧
    ((getCategories allC).filter
        (fun c => c.type == ty && c.subtype == st) ≠ [] →
      ∃ x ∈ (getCategories allC).filter
          (fun c => c.type == ty && c.subtype == st),
        (addCategory now newId userId nm ty st color allC).1.position =
          some (x.position.getD 0 + 1)) := by
  have hpos : (addCategory now newId userId nm ty st color allC).1.position =
      some (maxPosOf (((getCategories allC).filter
        (fun c => c.type == ty && c.subtype == st)).map
          (fun c => c.position.getD 0)) + 1) := rfl
  refine ⟨rfl, ?_, ?_, ?_⟩
  · intro hempty
    rw [hpos, hempty]
    rfl
  · intro x hx
    rw [hpos]
    have hmem : x.position.getD 0 ∈ (((getCategories allC).filter
        (fun c => c.type == ty && c.subtype == st)).map
          (fun c => c.position.getD 0)) :=
      List.mem_map_of_mem _ hx
    have hle := le_maxPosOf _ _ hmem
    simpa using Int.lt_add_one_iff.mpr hle
  · intro hne
    have hmapne : (((getCategories allC).filter
        (fun c => c.type == ty && c.subtype == st)).map
          (fun c => c.position.getD 0)) ≠ [] := by
      intro hcon
      exact hne (List.map_eq_nil_iff.mp hcon)
    obtain ⟨x, hx, hxe⟩ :=
      List.mem_map.mp (maxPosOf_mem _ hmapne)
    exact ⟨x, hx, by rw [hpos, hxe]⟩

/-- Witness for C4 at concrete stores: an existing non-deleted category at
position 5 in the partition forces the next one to position 6, while a new
link still gets position 0. -/
theorem add_assigns_position_witness :
    (addLink 10 "w1" none "https://b" .Web .NoneSub none none none none
      [baseLink]).1.position = some 0 ∧
    ∃ x ∈ (getCategories [{ baseCat with position := some 5 }]).filter
        (fun c => c.type == LinkType.Web && c.subtype == LinkSubtype.NoneSub),
      (addCategory 10 "w2" none "Work2" .Web .NoneSub none
        [{ baseCat with position := some 5 }]).1.position =
          some (x.position.getD 0 + 1) := by
  refine ⟨(add_assigns_position 10 "w1" none "Work2" "https://b" .Web
      .NoneSub none none none none none [baseCat] [baseLink]).1, ?_⟩
  exact (add_assigns_position 10 "w2" none "Work2" "https://b" .Web
      .NoneSub none none none none none
      [{ baseCat with position := some 5 }] []).2.2.2 (by decide)

/-! ## Claim C2 -/

/-- Counterexample to C2 as stated: `deleteCategory` (the store operation)
never touches the links partition, so a link pointing at the deleted
category keeps its `category_id` instead of having it nulled. -/
theorem deleteCategory_links_counterexample :
    (deleteCategoryOp 5 "c1"
        { links := [{ baseLink with category_id := some "c1" }],
          categories := [baseCat], nots := [] }).links =
      [{ baseLink with category_id := some "c1" }] ∧
    ({ baseLink with category_id := some "c1" } : Link).category_id =
      some "c1" ∧
    some "c1" ≠ (none : Option String) := by
  decide

/-- Claim C2, amended: the store's `deleteCategory` soft-deletes the
category (it stays in the raw collection with `is_deleted = true` and is
excluded from `getCategories`) but leaves the links partition entirely
untouched; the nulling of `category_id` on linking links happens only in
`DataContext.removeCategory`'s in-memory React state, which also drops
the category from its list instead of soft-deleting it. -/
theorem deleteCategory_soft_delete (now : Nat) (id : String)
    (st : LocalState) (c : Category) (hc : c ∈ st.categories)
    (hid : c.id = id) (hkeys : (st.categories.map Category.id).Nodup) :
    (deleteCategoryOp now id st).links = st.links ∧
    (deleteCategoryOp now id st).nots = st.nots ∧
    ({ c with is_deleted := true, updated_at := now } ∈
      (deleteCategoryOp now id st).categories) ∧
    ((deleteCategoryOp now id st).categories.map Category.id =
      st.categories.map Category.id) ∧
    (∀ x ∈ getCategories (deleteCategoryOp now id st).categories,
      x.id ≠ id) ∧
    (∀ (dc : DCState) (l : Link), l ∈ dc.links → l.category_id = some id →
      ({ l with category_id := none } ∈ (removeCategory id dc).links)) ∧
    (∀ (dc : DCState) (l : Link), l ∈ dc.links → l.category_id ≠ some id →
      l ∈ (removeCategory id dc).links) ∧
    (∀ (dc : DCState) (x : Category), x ∈ (removeCategory id dc).categories →
      x.id ≠ id) := by
  have hex : ∃ x ∈ st.categories, (x.id == id) = true :=
    ⟨c, hc, beq_iff_eq.mpr hid⟩
  obtain ⟨l1, x, l2, he, hpx, hneg, hupd⟩ :=
    updateFirst_split (fun c => c.id == id)
      (fun c => { c with is_deleted := true, updated_at := now })
      st.categories hex
  have hxid : x.id = id := beq_iff_eq.mp hpx
  have hxc : x = c := by
    refine unique_of_nodup_keys Category.id st.categories hkeys x c ?_ hc ?_
    · rw [he]; exact List.mem_append_right l1 (List.mem_cons_self x l2)
    · rw [hxid, hid]
  subst hxc
  have hdel : (deleteCategoryOp now id st).categories =
      l1 ++ { x with is_deleted := true, updated_at := now } :: l2 := hupd
  have hid2 : id ∉ l1.map Category.id ∧ id ∉ l2.map Category.id := by
    rw [he] at hkeys
    rw [List.map_append, List.map_cons, hxid] at hkeys
    have hn := List.nodup_middle.mp hkeys
    have hn2 := List.nodup_cons.mp hn
    constructor
    · intro hcon
      exact hn2.1 (List.mem_append_left _ hcon)
    · intro hcon
      exact hn2.1 (List.mem_append_right _ hcon)
  refine ⟨rfl, rfl, ?_, ?_, ?_, ?_, ?_, ?_⟩
  · rw [hdel]
    exact List.mem_append_right l1 (List.mem_cons_self _ l2)
  · exact map_updateFirst (fun c => c.id == id)
      (fun c => { c with is_deleted := true, updated_at := now })
      Category.id (fun y => rfl) st.categories
  · intro y hy hyid
    obtain ⟨z, hz, hze⟩ := List.mem_map.mp hy
    have hzid : z.id = id := by
      have : z.id = y.id := by rw [← hze]
      rw [this, hyid]
    have hz2 := List.mem_filter.mp hz
    have hznd : z.is_deleted = false := by simpa using hz2.2
    rw [hdel] at hz2
    rcases List.mem_append.mp hz2.1 with h1 | h2
    · have := hneg z h1
      rw [beq_eq_false_iff_ne] at this
      exact this hzid
    · rcases List.mem_cons.mp h2 with h3 | h4
      · rw [h3] at hznd
        simp at hznd
      · exact hid2.2 (by rw [← hzid]; exact List.mem_map_of_mem _ h4)
  · intro dc l hl hcid
    have : ({ l with category_id := none } : Link) =
        (fun l => if l.category_id == some id then
          { l with category_id := none } else l) l := by
      simp [hcid]
    rw [this]
    exact List.mem_map_of_mem _ hl
  · intro dc l hl hcid
    have : l = (fun l => if l.category_id == some id then
        { l with category_id := none } else l) l := by
      have hb : (l.category_id == some id) = false :=
        beq_eq_false_iff_ne.mpr hcid
      simp [hb]
    rw [this]
    exact List.mem_map_of_mem _ hl
  · intro dc y hy
    have := List.mem_filter.mp hy
    simpa using this.2

/-- Witness for C2 at a concrete store: the category is soft-deleted in
the raw collection while the pointing link is untouched. -/
theorem deleteCategory_soft_delete_witness :
    ({ baseCat with is_deleted := true, updated_at := 5 } ∈
      (deleteCategoryOp 5 "c1"
        { links := [{ baseLink with category_id := some "c1" }],
          categories := [baseCat], nots := [] }).categories) ∧
    (deleteCategoryOp 5 "c1"
        { links := [{ baseLink with category_id := some "c1" }],
          categories := [baseCat], nots := [] }).links =
      [{ baseLink with category_id := some "c1" }] := by
  have h := deleteCategory_soft_delete 5 "c1"
    { links := [{ baseLink with category_id := some "c1" }],
      categories := [baseCat], nots := [] } baseCat
    (List.mem_cons_self baseCat []) rfl (by decide)
  exact ⟨h.2.2.1, h.1⟩

/-! ## Facts about the reorder fold -/

theorem reorderStep_fst (key : α → String) (g : Nat → α → α)
    (acc : List α × List α) (iid : Nat × String) :
    (reorderStep key g acc iid).1 =
      updateFirst (fun x => key x == iid.2) (g iid.1) acc.1 := by
  simp [reorderStep, updateFirstR_eq]

theorem reorderFold_map_key (key : α → String) (g : Nat → α → α)
    (hg : ∀ i x, key (g i x) = key x) :
    ∀ (pairs : List (Nat × String)) (acc : List α × List α),
      ((pairs.foldl (reorderStep key g) acc).1).map key =
        acc.1.map key := by
  intro pairs
  induction pairs with
  | nil => intro acc; rfl
  | cons hd tl ih =>
      intro acc
      rw [List.foldl_cons, ih]
      rw [reorderStep_fst]
      exact map_updateFirst _ _ key (fun y => hg hd.1 y) acc.1

theorem reorderAll_map_key (key : α → String) (g : Nat → α → α)
    (hg : ∀ i x, key (g i x) = key x) (ids : List String) (all : List α) :
    ((reorderAll key g ids all).1).map key = all.map key :=
  reorderFold_map_key key g hg ids.enum (all, [])

/-! ## Claim C6 -/

/-- Claim C6: `deleteLink` soft-deletes — the entity stays in the raw
persisted collection (same length, same identities) with
`is_deleted = true` and otherwise unchanged fields, every other entity is
untouched, the deleted entity is excluded from the `getLinks` projection,
and no repository operation (`updateLink`, `reorderLinks` included)
physically removes an identity from the collection. -/
theorem deleteLink_soft_delete (now : Nat) (id : String) (all : List Link)
    (l : Link) (hl : l ∈ all) (hid : l.id = id)
    (hkeys : (all.map Link.id).Nodup)
    (hclean : ∀ x ∈ all, x.file_data = none) :
    ({ l with is_deleted := true, updated_at := now } ∈
      deleteLink now id all) ∧
    (deleteLink now id all).length = all.length ∧
    (deleteLink now id all).map Link.id = all.map Link.id ∧
    (∀ x ∈ all, x.id ≠ id → x ∈ deleteLink now id all) ∧
    (∀ x ∈ getLinks (deleteLink now id all), x.id ≠ id) ∧
    (∀ u : LinkUpdates,
      (updateLink now id u all).map Link.id = all.map Link.id) ∧
    (∀ ids : List String,
      ((reorderLinks now ids all).1).map Link.id = all.map Link.id) := by
  have hex : ∃ x ∈ all, (x.id == id) = true := ⟨l, hl, beq_iff_eq.mpr hid⟩
  obtain ⟨l1, x, l2, he, hpx, hneg, hupd⟩ :=
    updateFirst_split (fun y => y.id == id)
      (fun y => { y with is_deleted := true, updated_at := now }) all hex
  have hxid : x.id = id := beq_iff_eq.mp hpx
  have hxl : x = l := by
    refine unique_of_nodup_keys Link.id all hkeys x l ?_ hl ?_
    · rw [he]; exact List.mem_append_right l1 (List.mem_cons_self x l2)
    · rw [hxid, hid]
  subst hxl
  have hid2 : id ∉ l2.map Link.id := by
    rw [he] at hkeys
    rw [List.map_append, List.map_cons, hxid] at hkeys
    have hn2 := List.nodup_cons.mp (List.nodup_middle.mp hkeys)
    intro hcon
    exact hn2.1 (List.mem_append_right _ hcon)
  refine ⟨?_, ?_, ?_, ?_, ?_, ?_, ?_⟩
  · refine mem_stripFileData_of_mem _ _ ?_ (hclean x hl)
    rw [hupd]
    exact List.mem_append_right l1 (List.mem_cons_self _ l2)
  · unfold deleteLink stripFileData
    rw [List.length_map, length_updateFirst]
  · unfold deleteLink
    rw [stripFileData_map_id]
    exact map_updateFirst (fun y => y.id == id)
      (fun y => { y with is_deleted := true, updated_at := now })
      Link.id (fun y => rfl) all
  · intro y hy hyid
    refine mem_stripFileData_of_mem _ _ ?_ (hclean y hy)
    have hb : (y.id == id) = false := beq_eq_false_iff_ne.mpr hyid
    exact mem_updateFirst_of_neg _ _ y hb all hy
  · intro y hy hyid
    obtain ⟨z, hz, hze⟩ := List.mem_map.mp hy
    have hzid : z.id = id := by
      have : z.id = y.id := by rw [← hze]
      rw [this, hyid]
    have hz2 := List.mem_filter.mp hz
    have hznd : z.is_deleted = false := by simpa using hz2.2
    obtain ⟨w, hw, hwe⟩ := List.mem_map.mp hz2.1
    have hwid : w.id = id := by
      have : w.id = z.id := by rw [← hwe]
      rw [this, hzid]
    have hwnd : w.is_deleted = false := by
      have : w.is_deleted = z.is_deleted := by rw [← hwe]
      rw [this, hznd]
    rw [hupd] at hw
    rcases List.mem_append.mp hw with h1 | h2
    · have := hneg w h1
      rw [beq_eq_false_iff_ne] at this
      exact this hwid
    · rcases List.mem_cons.mp h2 with h3 | h4
      · rw [h3] at hwnd
        simp at hwnd
      · exact hid2 (by rw [← hwid]; exact List.mem_map_of_mem _ h4)
  · intro u
    unfold updateLink
    rw [stripFileData_map_id]
    exact map_updateFirst (fun y => y.id == id) (applyLinkUpdates u now)
      Link.id (fun y => rfl) all
  · intro ids
    unfold reorderLinks
    rw [stripFileData_map_id]
    exact reorderAll_map_key Link.id
      (fun i l => { l with position := some (Int.ofNat i), updated_at := now })
      (fun i y => rfl) ids all

/-- Witness for C6 at a concrete store. -/
theorem deleteLink_soft_delete_witness :
    ({ baseLink with is_deleted := true, updated_at := 9 } ∈
      deleteLink 9 "l1" [baseLink]) ∧
    (deleteLink 9 "l1" [baseLink]).length = [baseLink].length ∧
    (∀ x ∈ getLinks (deleteLink 9 "l1" [baseLink]), x.id ≠ "l1") := by
  have h := deleteLink_soft_delete 9 "l1" [baseLink] baseLink
    (List.mem_cons_self baseLink []) rfl (by decide) (by decide)
  exact ⟨h.1, h.2.1, h.2.2.2.2.1⟩

theorem reorderStep_snd (key : α → String) (g : Nat → α → α)
    (acc : List α × List α) (iid : Nat × String) :
    (reorderStep key g acc iid).2 =
      acc.2 ++ ((acc.1.find? (fun x => key x == iid.2)).map (g iid.1)).toList := by
  simp [reorderStep, updateFirstR_eq]

theorem reorderFold_snd_mono (key : α → String) (g : Nat → α → α) :
    ∀ (pairs : List (Nat × String)) (acc : List α × List α) (x : α),
      x ∈ acc.2 → x ∈ (pairs.foldl (reorderStep key g) acc).2 := by
  intro pairs
  induction pairs with
  | nil => intro acc x hx; exact hx
  | cons hd tl ih =>
      intro acc x hx
      rw [List.foldl_cons]
      refine ih _ x ?_
      rw [reorderStep_snd]
      exact List.mem_append_left _ hx

theorem reorderFold_untouched (key : α → String) (g : Nat → α → α) :
    ∀ (pairs : List (Nat × String)) (acc : List α × List α) (x : α),
      x ∈ acc.1 → (∀ q ∈ pairs, key x ≠ q.2) →
      x ∈ (pairs.foldl (reorderStep key g) acc).1 := by
  intro pairs
  induction pairs with
  | nil => intro acc x hx _; exact hx
  | cons hd tl ih =>
      intro acc x hx h
      rw [List.foldl_cons]
      refine ih _ x ?_ (fun q hq => h q (List.mem_cons_of_mem hd hq))
      rw [reorderStep_fst]
      have hb : (key x == hd.2) = false :=
        beq_eq_false_iff_ne.mpr (h hd (List.mem_cons_self hd tl))
      exact mem_updateFirst_of_neg _ _ x hb acc.1 hx

theorem reorderFold_snd_stamped (key : α → String) (g : Nat → α → α)
    (P : α → Prop) (hP : ∀ i y, P (g i y)) :
    ∀ (pairs : List (Nat × String)) (acc : List α × List α),
      (∀ x ∈ acc.2, P x) →
      ∀ x ∈ (pairs.foldl (reorderStep key g) acc).2, P x := by
  intro pairs
  induction pairs with
  | nil => intro acc h x hx; exact h x hx
  | cons hd tl ih =>
      intro acc h
      rw [List.foldl_cons]
      refine ih _ ?_
      intro x hx
      rw [reorderStep_snd] at hx
      rcases List.mem_append.mp hx with h1 | h2
      · exact h x h1
      · cases hf : acc.1.find? (fun y => key y == hd.2) with
        | none => rw [hf] at h2; cases h2
        | some y =>
            rw [hf] at h2
            have : x = g hd.1 y := by
              simpa using h2
            rw [this]
            exact hP hd.1 y

theorem reorderFold_touched (key : α → String) (g : Nat → α → α)
    (hg : ∀ i x, key (g i x) = key x) :
    ∀ (pairs : List (Nat × String)) (acc : List α × List α),
      (pairs.map Prod.snd).Nodup → (acc.1.map key).Nodup →
      ∀ (i : Nat) (id : String), (i, id) ∈ pairs →
      ∀ x ∈ acc.1, key x = id →
      g i x ∈ (pairs.foldl (reorderStep key g) acc).1 ∧
      g i x ∈ (pairs.foldl (reorderStep key g) acc).2 := by
  intro pairs
  induction pairs with
  | nil => intro acc _ _ i id hp; cases hp
  | cons hd tl ih =>
      obtain ⟨j, jid⟩ := hd
      intro acc hsnd hkeys i id hp x hx hkx
      have hsnd' : jid ∉ tl.map Prod.snd ∧ (tl.map Prod.snd).Nodup := by
        rw [List.map_cons] at hsnd
        exact List.nodup_cons.mp hsnd
      rcases List.mem_cons.mp hp with heq | htl
      · cases heq
        have hex : ∃ y ∈ acc.1, (key y == jid) = true :=
          ⟨x, hx, beq_iff_eq.mpr hkx⟩
        obtain ⟨l1, x', l2, he, hpx, hneg, hupd⟩ :=
          updateFirst_split (fun y => key y == jid) (g j) acc.1 hex
        have hx' : x' = x := by
          refine unique_of_nodup_keys key acc.1 hkeys x' x ?_ hx ?_
          · rw [he]
            exact List.mem_append_right l1 (List.mem_cons_self x' l2)
          · rw [beq_iff_eq.mp hpx, hkx]
        subst hx'
        have hfind : acc.1.find? (fun y => key y == jid) = some x' := by
          rw [he]
          exact find?_of_split _ l1 x' l2 hneg hpx
        rw [List.foldl_cons]
        constructor
        · refine reorderFold_untouched key g tl _ (g j x') ?_ ?_
          · show g j x' ∈ (reorderStep key g acc (j, jid)).1
            rw [reorderStep_fst]
            show g j x' ∈ updateFirst (fun y => key y == jid) (g j) acc.1
            rw [hupd]
            exact List.mem_append_right l1 (List.mem_cons_self _ l2)
          · intro q hq
            rw [hg j x', hkx]
            intro hcon
            refine hsnd'.1 ?_
            rw [hcon]
            exact List.mem_map_of_mem Prod.snd hq
        · refine reorderFold_snd_mono key g tl _ (g j x') ?_
          show g j x' ∈ (reorderStep key g acc (j, jid)).2
          rw [reorderStep_snd]
          refine List.mem_append_right _ ?_
          show g j x' ∈
            ((acc.1.find? (fun y => key y == jid)).map (g j)).toList
          rw [hfind]
          simp
      · have hid' : id ≠ jid := by
          intro hcon
          have hmem : id ∈ tl.map Prod.snd := by
            have := List.mem_map_of_mem Prod.snd htl
            simpa using this
          exact hsnd'.1 (hcon ▸ hmem)
        rw [List.foldl_cons]
        have hb : (key x == jid) = false :=
          beq_eq_false_iff_ne.mpr (by rw [hkx]; exact hid')
        refine ih (reorderStep key g acc (j, jid)) hsnd'.2 ?_ i id htl x ?_
          hkx
        · show (((reorderStep key g acc (j, jid)).1).map key).Nodup
          rw [reorderStep_fst]
          show ((updateFirst (fun y => key y == jid) (g j) acc.1).map
            key).Nodup
          rw [map_updateFirst (fun y => key y == jid) (g j) key
            (fun y => hg j y) acc.1]
          exact hkeys
        · show x ∈ (reorderStep key g acc (j, jid)).1
          rw [reorderStep_fst]
          show x ∈ updateFirst (fun y => key y == jid) (g j) acc.1
          exact mem_updateFirst_of_neg _ _ x hb acc.1 hx

/-! ## Claim C5 -/

/-- Counterexample to C5 as stated: a reorder that leaves the only link at
its existing position 0 still re-stamps its `updated_at` (from 1 to 9) and
still places it on the `toUpdate` sync buffer, although its position did
not change. -/
theorem reorderLinks_restamp_counterexample :
    (reorderLinks 9 ["l1"] [baseLink]).1 =
      [{ baseLink with position := some 0, updated_at := 9 }] ∧
    baseLink.position = some 0 ∧
    baseLink.updated_at = 1 ∧
    (reorderLinks 9 ["l1"] [baseLink]).2 =
      [{ baseLink with position := some 0, updated_at := 9 }] ∧
    (9 : Nat) ≠ 1 := by
  decide

/-- Claim C5, amended: for every id at index i of the list that matches an
entity, `reorderLinks`/`reorderCategories` set `position = i` and re-stamp
`updated_at` unconditionally — matched entities whose position did not
change are re-stamped and synced too; every entity on the sync buffer
carries the new `updated_at`; entities whose id is not listed are left
untouched. -/
theorem reorder_assigns_positions (now : Nat) (ids : List String)
    (all : List Link) (hids : ids.Nodup)
    (hkeys : (all.map Link.id).Nodup)
    (hclean : ∀ x ∈ all, x.file_data = none) :
    (∀ (i : Nat) (id : String), (i, id) ∈ ids.enum → ∀ l ∈ all, l.id = id →
      ({ l with position := some (Int.ofNat i), updated_at := now } ∈
        (reorderLinks now ids all).1 ∧
       { l with position := some (Int.ofNat i), updated_at := now } ∈
        (reorderLinks now ids all).2)) ∧
    (∀ l ∈ all, l.id ∉ ids → l ∈ (reorderLinks now ids all).1) ∧
    (∀ x ∈ (reorderLinks now ids all).2, x.updated_at = now) ∧
    (∀ allC : List Category, (allC.map Category.id).Nodup →
      ∀ (i : Nat) (id : String), (i, id) ∈ ids.enum → ∀ c ∈ allC, c.id = id →
      ({ c with position := some (Int.ofNat i), updated_at := now } ∈
        (reorderCategories now ids allC).1 ∧
       { c with position := some (Int.ofNat i), updated_at := now } ∈
        (reorderCategories now ids allC).2)) := by
  have hsnd : (ids.enum.map Prod.snd).Nodup := by
    rw [List.enum_map_snd]
    exact hids
  refine ⟨?_, ?_, ?_, ?_⟩
  · intro i id hp l hl hid
    have h := reorderFold_touched Link.id
      (fun i l => { l with position := some (Int.ofNat i), updated_at := now })
      (fun i y => rfl) ids.enum (all, []) hsnd hkeys i id hp l hl hid
    constructor
    · exact mem_stripFileData_of_mem _ _ h.1 (hclean l hl)
    · exact h.2
  · intro l hl hnot
    refine mem_stripFileData_of_mem _ _ ?_ (hclean l hl)
    refine reorderFold_untouched Link.id _ ids.enum (all, []) l hl ?_
    intro q hq hcon
    have : q.2 ∈ ids := by
      have := List.mem_map_of_mem Prod.snd hq
      rwa [List.enum_map_snd] at this
    exact hnot (hcon ▸ this)
  · intro x hx
    exact reorderFold_snd_stamped Link.id
      (fun i l => { l with position := some (Int.ofNat i), updated_at := now })
      (fun y => y.updated_at = now) (fun i y => rfl) ids.enum (all, [])
      (fun y hy => absurd hy (List.not_mem_nil y)) x hx
  · intro allC hkeysC i id hp c hc hid
    exact reorderFold_touched Category.id
      (fun i c => { c with position := some (Int.ofNat i), updated_at := now })
      (fun i y => rfl) ids.enum (allC, []) hsnd hkeysC i id hp c hc hid

/-- Witness for C5 at a concrete store and id list. -/
theorem reorder_assigns_positions_witness :
    ({ baseLink with position := some (Int.ofNat 0), updated_at := 9 } ∈
      (reorderLinks 9 ["l1"] [baseLink]).1) ∧
    ({ baseLink with position := some (Int.ofNat 0), updated_at := 9 } ∈
      (reorderLinks 9 ["l1"] [baseLink]).2) :=
  (reorder_assigns_positions 9 ["l1"] [baseLink] (by decide) (by decide)
    (by decide)).1 0 "l1" (by decide) baseLink
    (List.mem_cons_self baseLink []) rfl

/-! ## Reductions of the successful `pullFromCloud` branch -/

theorem pullFromCloud_ok_state (now : Nat) (u : String)
    (status0 : SyncStatus) (cs : List Category) (ls : List Link)
    (ns : List Note) (st : LocalState) :
    (pullFromCloud now (some u) status0 (.ok cs) (.ok ls) (.ok ns)
        st).state =
      { links := stripFileData (ls.map defaultPinLink ++
          st.links.filter (fun l =>
            !((ls.map defaultPinLink).any (fun r => r.id == l.id)))),
        categories := cs.map defaultPinCat ++
          st.categories.filter (fun c =>
            !((cs.map defaultPinCat).any (fun r => r.id == c.id))),
        nots := ns ++ st.nots.filter (fun n =>
          !(ns.any (fun r => r.id == n.id))) } := rfl

theorem pullFromCloud_ok_pushedLinks (now : Nat) (u : String)
    (status0 : SyncStatus) (cs : List Category) (ls : List Link)
    (ns : List Note) (st : LocalState) :
    (pullFromCloud now (some u) status0 (.ok cs) (.ok ls) (.ok ns)
        st).pushedLinks =
      st.links.filter (fun l =>
        !((ls.map defaultPinLink).any (fun r => r.id == l.id))) := rfl

/-! ## Claim C3 -/

/-- Counterexample to C3 as stated: a local link with no owner stamped
(`user_id` absent) that is missing remotely is pushed by `pullFromCloud`
and kept in the merged local state — it is not ignored. -/
theorem pull_ownerless_counterexample :
    (pullFromCloud 9 (some "u")
        { lastSync := none, status := .idle, message := "" }
        (.ok []) (.ok []) (.ok [])
        { links := [baseLink], categories := [], nots := [] }).pushedLinks =
      [baseLink] ∧
    baseLink.user_id = none ∧
    baseLink ∈ (pullFromCloud 9 (some "u")
        { lastSync := none, status := .idle, message := "" }
        (.ok []) (.ok []) (.ok [])
        { links := [baseLink], categories := [], nots := [] }).state.links := by
  decide

/-- Claim C3, amended: `pullFromCloud` partitions the local set purely by
identity absence from the remote fetch and never consults the owner
stamp: a local entity without `user_id` whose identity is absent remotely
is pushed to the remote and retained in the merged state like any other
local-only entity. -/
theorem pull_ignores_owner (now : Nat) (u : String) (status0 : SyncStatus)
    (cs : List Category) (ls : List Link) (ns : List Note)
    (st : LocalState) (l : Link) (hl : l ∈ st.links)
    (hown : l.user_id = none) (habsent : ∀ r ∈ ls, r.id ≠ l.id) :
    l ∈ (pullFromCloud now (some u) status0 (.ok cs) (.ok ls) (.ok ns)
        st).pushedLinks ∧
    { l with file_data := none } ∈
      (pullFromCloud now (some u) status0 (.ok cs) (.ok ls) (.ok ns)
        st).state.links := by
  have hfilter : l ∈ st.links.filter (fun x =>
      !((ls.map defaultPinLink).any (fun r => r.id == x.id))) := by
    refine List.mem_filter.mpr ⟨hl, ?_⟩
    simp only [Bool.not_eq_true']
    rw [List.any_eq_false]
    intro r hr
    obtain ⟨r0, hr0, hre⟩ := List.mem_map.mp hr
    have hids : r.id = r0.id := by rw [← hre]; rfl
    intro hc
    exact habsent r0 hr0 (hids ▸ beq_iff_eq.mp hc)
  constructor
  · rw [pullFromCloud_ok_pushedLinks]
    exact hfilter
  · rw [pullFromCloud_ok_state]
    exact List.mem_map.mpr ⟨l, List.mem_append_right _ hfilter, rfl⟩

/-- Witness for C3 at a concrete ownerless link and empty remote. -/
theorem pull_ignores_owner_witness :
    baseLink ∈ (pullFromCloud 9 (some "w")
        { lastSync := none, status := .idle, message := "" }
        (.ok []) (.ok []) (.ok [])
        { links := [baseLink], categories := [baseCat],
          nots := [] }).pushedLinks :=
  (pull_ignores_owner 9 "w"
    { lastSync := none, status := .idle, message := "" }
    [] [] [] { links := [baseLink], categories := [baseCat], nots := [] }
    baseLink (List.mem_cons_self baseLink []) rfl
    (fun r hr => absurd hr (List.not_mem_nil r))).1

/-! ## The legacy `Map`-based merge: key lemmas -/

namespace Legacy

theorem mapGet_mapInsert_self (k : String) (v : α) :
    ∀ m : List (String × α), mapGet k (mapInsert k v m) = some v := by
  intro m
  induction m with
  | nil => simp [mapInsert, mapGet]
  | cons p rest ih =>
      by_cases h : p.1 = k
      · simp [mapInsert, h, mapGet]
      · simp [mapInsert, h, mapGet, ih]

theorem mapGet_mapInsert_ne (k k' : String) (h : k' ≠ k) (v : α) :
    ∀ m : List (String × α), mapGet k' (mapInsert k v m) = mapGet k' m := by
  intro m
  induction m with
  | nil =>
      have hkk : ¬k = k' := fun hc => h hc.symm
      simp [mapInsert, mapGet, hkk]
  | cons p rest ih =>
      by_cases hp : p.1 = k
      · subst hp
        have hne : ¬p.1 = k' := fun hc => h hc.symm
        simp [mapInsert, mapGet, hne]
      · simp [mapInsert, hp, mapGet, ih]

theorem mapGet_mem (k : String) (v : α) :
    ∀ m : List (String × α), mapGet k m = some v → (k, v) ∈ m := by
  intro m
  induction m with
  | nil => intro h; cases h
  | cons p rest ih =>
      intro h
      by_cases hp : p.1 = k
      · rw [mapGet, if_pos hp] at h
        have hv : p.2 = v := Option.some.inj h
        have : p = (k, v) := by
          cases p
          simp_all
        rw [← this]
        exact List.mem_cons_self p rest
      · rw [mapGet, if_neg hp] at h
        exact List.mem_cons_of_mem p (ih h)

theorem mem_mapInsert (k : String) (v : α) (q : String × α) :
    ∀ m : List (String × α), q ∈ mapInsert k v m → q ∈ m ∨ q = (k, v) := by
  intro m
  induction m with
  | nil =>
      intro h
      rcases List.mem_cons.mp h with h1 | h1
      · exact Or.inr h1
      · cases h1
  | cons p rest ih =>
      by_cases hp : p.1 = k
      · intro h
        rw [mapInsert, if_pos hp] at h
        rcases List.mem_cons.mp h with h1 | h1
        · exact Or.inr h1
        · exact Or.inl (List.mem_cons_of_mem p h1)
      · intro h
        rw [mapInsert, if_neg hp] at h
        rcases List.mem_cons.mp h with h1 | h1
        · exact Or.inl (h1 ▸ List.mem_cons_self p rest)
        · rcases ih h1 with h2 | h2
          · exact Or.inl (List.mem_cons_of_mem p h2)
          · exact Or.inr h2

theorem mem_keys_mapInsert (k : String) (v : α) (k' : String) :
    ∀ m : List (String × α),
      k' ∈ (mapInsert k v m).map Prod.fst ↔
        k' = k ∨ k' ∈ m.map Prod.fst := by
  intro m
  induction m with
  | nil => simp [mapInsert]
  | cons p rest ih =>
      by_cases hp : p.1 = k
      · rw [mapInsert, if_pos hp]
        simp only [List.map_cons, List.mem_cons, hp]
        tauto
      · rw [mapInsert, if_neg hp]
        simp only [List.map_cons, List.mem_cons, ih]
        tauto

theorem nodup_keys_mapInsert (k : String) (v : α) :
    ∀ m : List (String × α), (m.map Prod.fst).Nodup →
      ((mapInsert k v m).map Prod.fst).Nodup := by
  intro m
  induction m with
  | nil => intro _; simp [mapInsert]
  | cons p rest ih =>
      intro hn
      rw [List.map_cons] at hn
      obtain ⟨hp1, hrest⟩ := List.nodup_cons.mp hn
      by_cases hp : p.1 = k
      · rw [mapInsert, if_pos hp]
        rw [List.map_cons]
        refine List.nodup_cons.mpr ⟨?_, hrest⟩
        rw [← hp]
        exact hp1
      · rw [mapInsert, if_neg hp]
        rw [List.map_cons]
        refine List.nodup_cons.mpr ⟨?_, ih hrest⟩
        rw [mem_keys_mapInsert]
        rintro (h1 | h1)
        · exact hp h1
        · exact hp1 h1

theorem mapGet_of_mem_nodup (k : String) (v : α) :
    ∀ m : List (String × α), (m.map Prod.fst).Nodup → (k, v) ∈ m →
      mapGet k m = some v := by
  intro m
  induction m with
  | nil => intro _ h; cases h
  | cons p rest ih =>
      intro hn hm
      rw [List.map_cons] at hn
      obtain ⟨hp1, hrest⟩ := List.nodup_cons.mp hn
      rcases List.mem_cons.mp hm with h1 | h1
      · rw [← h1]
        simp [mapGet]
      · have hkrest : k ∈ rest.map Prod.fst := by
          have := List.mem_map_of_mem Prod.fst h1
          simpa using this
        have hp : p.1 ≠ k := by
          intro hc
          exact hp1 (hc ▸ hkrest)
        rw [mapGet, if_neg hp]
        exact ih hrest h1

/-- Well-formedness of the merge map: keys are distinct and each entry's
key is the identity of its value. -/
def MapWF (idOf : α → String) (m : List (String × α)) : Prop :=
  (m.map Prod.fst).Nodup ∧ ∀ p ∈ m, p.1 = idOf p.2

theorem mapWF_mapInsert (idOf : α → String) (v : α)
    (m : List (String × α)) (h : MapWF idOf m) :
    MapWF idOf (mapInsert (idOf v) v m) := by
  refine ⟨nodup_keys_mapInsert _ _ m h.1, ?_⟩
  intro p hp
  rcases mem_mapInsert _ _ p m hp with h1 | h1
  · exact h.2 p h1
  · rw [h1]

theorem foldl_ins_get_of_not_mem (idOf : α → String) (k : String) :
    ∀ (lcl : List α) (m : List (String × α)), (∀ x ∈ lcl, idOf x ≠ k) →
      mapGet k (lcl.foldl (fun m item => mapInsert (idOf item) item m) m) =
        mapGet k m := by
  intro lcl
  induction lcl with
  | nil => intro m _; rfl
  | cons y ys ih =>
      intro m h
      rw [List.foldl_cons]
      rw [ih _ (fun x hx => h x (List.mem_cons_of_mem y hx))]
      exact mapGet_mapInsert_ne _ k
        (fun hc => h y (List.mem_cons_self y ys) hc.symm) y m

theorem foldl_ins_get_self (idOf : α → String) :
    ∀ (lcl : List α) (m : List (String × α)) (x : α),
      (lcl.map idOf).Nodup → x ∈ lcl →
      mapGet (idOf x)
        (lcl.foldl (fun m item => mapInsert (idOf item) item m) m) =
        some x := by
  intro lcl
  induction lcl with
  | nil => intro m x _ hx; cases hx
  | cons y ys ih =>
      intro m x hn hx
      rw [List.map_cons] at hn
      obtain ⟨hy, hys⟩ := List.nodup_cons.mp hn
      rw [List.foldl_cons]
      rcases List.mem_cons.mp hx with h1 | h1
      · subst h1
        have hnot : ∀ z ∈ ys, idOf z ≠ idOf x := by
          intro z hz hc
          exact hy (hc ▸ List.mem_map_of_mem idOf hz)
        rw [foldl_ins_get_of_not_mem idOf (idOf x) ys _ hnot]
        exact mapGet_mapInsert_self (idOf x) x m
      · exact ih _ x hys h1

theorem foldl_ins_wf (idOf : α → String) :
    ∀ (lcl : List α) (m : List (String × α)), MapWF idOf m →
      MapWF idOf
        (lcl.foldl (fun m item => mapInsert (idOf item) item m) m) := by
  intro lcl
  induction lcl with
  | nil => intro m h; exact h
  | cons y ys ih =>
      intro m h
      rw [List.foldl_cons]
      exact ih _ (mapWF_mapInsert idOf y m h)

/-- The remote-side fold step of `mergeArrays`. -/
def rstep (idOf : α → String) (updOf : α → Nat)
    (m : List (String × α)) (item : α) : List (String × α) :=
  match mapGet (idOf item) m with
  | none => mapInsert (idOf item) item m
  | some existing =>
      if updOf existing ≤ updOf item then mapInsert (idOf item) item m
      else m

theorem mergeArrays_eq (idOf : α → String) (updOf : α → Nat)
    (lcl rmt : List α) :
    mergeArrays idOf updOf lcl rmt =
      (rmt.foldl (rstep idOf updOf)
        (lcl.foldl (fun m item => mapInsert (idOf item) item m) [])).map
          Prod.snd := rfl

theorem rstep_get_ne (idOf : α → String) (updOf : α → Nat) (k : String)
    (item : α) (hne : idOf item ≠ k) (m : List (String × α)) :
    mapGet k (rstep idOf updOf m item) = mapGet k m := by
  unfold rstep
  cases hg : mapGet (idOf item) m with
  | none => exact mapGet_mapInsert_ne _ k (fun hc => hne hc.symm) item m
  | some ex =>
      show mapGet k (if updOf ex ≤ updOf item then
        mapInsert (idOf item) item m else m) = mapGet k m
      by_cases hle : updOf ex ≤ updOf item
      · rw [if_pos hle]
        exact mapGet_mapInsert_ne _ k (fun hc => hne hc.symm) item m
      · rw [if_neg hle]

theorem foldl_rstep_get_of_not_mem (idOf : α → String) (updOf : α → Nat)
    (k : String) :
    ∀ (rmt : List α) (m : List (String × α)), (∀ x ∈ rmt, idOf x ≠ k) →
      mapGet k (rmt.foldl (rstep idOf updOf) m) = mapGet k m := by
  intro rmt
  induction rmt with
  | nil => intro m _; rfl
  | cons y ys ih =>
      intro m h
      rw [List.foldl_cons]
      rw [ih _ (fun x hx => h x (List.mem_cons_of_mem y hx))]
      exact rstep_get_ne idOf updOf k y (h y (List.mem_cons_self y ys)) m

theorem foldl_rstep_get_self (idOf : α → String) (updOf : α → Nat) :
    ∀ (rmt : List α) (m : List (String × α)) (r : α),
      (rmt.map idOf).Nodup → r ∈ rmt →
      mapGet (idOf r) (rmt.foldl (rstep idOf updOf) m) =
        (match mapGet (idOf r) m with
         | none => some r
         | some ex =>
             if updOf ex ≤ updOf r then some r else some ex) := by
  intro rmt
  induction rmt with
  | nil => intro m r _ hr; cases hr
  | cons y ys ih =>
      intro m r hn hr
      rw [List.map_cons] at hn
      obtain ⟨hy, hys⟩ := List.nodup_cons.mp hn
      rw [List.foldl_cons]
      rcases List.mem_cons.mp hr with h1 | h1
      · subst h1
        have hnot : ∀ z ∈ ys, idOf z ≠ idOf r := by
          intro z hz hc
          exact hy (hc ▸ List.mem_map_of_mem idOf hz)
        rw [foldl_rstep_get_of_not_mem idOf updOf (idOf r) ys _ hnot]
        unfold rstep
        cases hg : mapGet (idOf r) m with
        | none => exact mapGet_mapInsert_self (idOf r) r m
        | some ex =>
            show mapGet (idOf r) (if updOf ex ≤ updOf r then
                mapInsert (idOf r) r m else m) =
              (if updOf ex ≤ updOf r then some r else some ex)
            by_cases hle : updOf ex ≤ updOf r
            · rw [if_pos hle, if_pos hle]
              exact mapGet_mapInsert_self (idOf r) r m
            · rw [if_neg hle, if_neg hle]
              exact hg
      · have hne : idOf r ≠ idOf y := by
          intro hc
          exact hy (hc ▸ List.mem_map_of_mem idOf h1)
        rw [ih _ r hys h1]
        rw [rstep_get_ne idOf updOf (idOf r) y (fun hc => hne hc.symm) m]

theorem rstep_wf (idOf : α → String) (updOf : α → Nat)
    (m : List (String × α)) (item : α) (h : MapWF idOf m) :
    MapWF idOf (rstep idOf updOf m item) := by
  unfold rstep
  cases mapGet (idOf item) m with
  | none => exact mapWF_mapInsert idOf item m h
  | some ex =>
      show MapWF idOf (if updOf ex ≤ updOf item then
        mapInsert (idOf item) item m else m)
      by_cases hle : updOf ex ≤ updOf item
      · rw [if_pos hle]
        exact mapWF_mapInsert idOf item m h
      · rw [if_neg hle]
        exact h

theorem foldl_rstep_wf (idOf : α → String) (updOf : α → Nat) :
    ∀ (rmt : List α) (m : List (String × α)), MapWF idOf m →
      MapWF idOf (rmt.foldl (rstep idOf updOf) m) := by
  intro rmt
  induction rmt with
  | nil => intro m h; exact h
  | cons y ys ih =>
      intro m h
      rw [List.foldl_cons]
      exact ih _ (rstep_wf idOf updOf m y h)

end Legacy

/-! ## Claim C1 -/

def c1Local : Link := { baseLink with updated_at := 10 }

def c1Remote : Link := { baseLink with updated_at := 5, name := "remote" }

/-- Counterexample to C1 as stated: `pullFromCloud` keeps the remote copy
outright — here the local copy of identity "l1" has the strictly later
`updated_at` (10 vs 5), yet the merged state holds the remote copy and
the local one is gone. -/
theorem pull_recency_counterexample :
    (pullFromCloud 9 (some "u")
        { lastSync := none, status := .idle, message := "" }
        (.ok []) (.ok [c1Remote]) (.ok [])
        { links := [c1Local], categories := [], nots := [] }).state.links =
      [c1Remote] ∧
    c1Local.updated_at = 10 ∧
    c1Remote.updated_at = 5 ∧
    c1Local ∉ (pullFromCloud 9 (some "u")
        { lastSync := none, status := .idle, message := "" }
        (.ok []) (.ok [c1Remote]) (.ok [])
        { links := [c1Local], categories := [], nots := [] }).state.links := by
  decide

/-- Claim C1, amended: the legacy list-merge helper `mergeArrays` does obey
the recency law — for an identity present on both sides, the copy with the
greater `updated_at` is the unique survivor, and the remote copy wins an
exact tie; `pullFromCloud`, by contrast, keeps the remote copy outright
for every identity present in both fetched remote and local store,
regardless of which `updated_at` is later. -/
theorem merge_recency {α : Type} (idOf : α → String) (updOf : α → Nat)
    (lcl rmt : List α) (l r : α) (hln : (lcl.map idOf).Nodup)
    (hrn : (rmt.map idOf).Nodup) (hl : l ∈ lcl) (hr : r ∈ rmt)
    (hid : idOf l = idOf r) :
    ((if updOf l ≤ updOf r then r else l) ∈
        Legacy.mergeArrays idOf updOf lcl rmt ∧
      ∀ x ∈ Legacy.mergeArrays idOf updOf lcl rmt, idOf x = idOf r →
        x = (if updOf l ≤ updOf r then r else l)) ∧
    (∀ (now : Nat) (u : String) (status0 : SyncStatus) (cs : List Category)
        (ls : List Link) (ns : List Note) (st : LocalState) (rl ll : Link),
      rl ∈ ls → ll ∈ st.links → ll.id = rl.id → (ls.map Link.id).Nodup →
      ({ defaultPinLink rl with file_data := none } ∈
          (pullFromCloud now (some u) status0 (.ok cs) (.ok ls) (.ok ns)
            st).state.links ∧
        ∀ x ∈ (pullFromCloud now (some u) status0 (.ok cs) (.ok ls)
            (.ok ns) st).state.links, x.id = rl.id →
          x = { defaultPinLink rl with file_data := none })) := by
  constructor
  · -- the legacy mergeArrays recency law
    have hwf0 : Legacy.MapWF idOf
        (lcl.foldl (fun m item => Legacy.mapInsert (idOf item) item m) []) :=
      Legacy.foldl_ins_wf idOf lcl []
        ⟨List.nodup_nil, fun p hp => absurd hp (List.not_mem_nil p)⟩
    have hwf1 : Legacy.MapWF idOf
        ((rmt.foldl (Legacy.rstep idOf updOf)
          (lcl.foldl (fun m item => Legacy.mapInsert (idOf item) item m)
            []))) :=
      Legacy.foldl_rstep_wf idOf updOf rmt _ hwf0
    have hg0 : Legacy.mapGet (idOf r)
        (lcl.foldl (fun m item => Legacy.mapInsert (idOf item) item m) []) =
        some l := by
      rw [← hid]
      exact Legacy.foldl_ins_get_self idOf lcl [] l hln hl
    have hg1 : Legacy.mapGet (idOf r)
        (rmt.foldl (Legacy.rstep idOf updOf)
          (lcl.foldl (fun m item => Legacy.mapInsert (idOf item) item m)
            [])) =
        some (if updOf l ≤ updOf r then r else l) := by
      rw [Legacy.foldl_rstep_get_self idOf updOf rmt _ r hrn hr, hg0]
      show (if updOf l ≤ updOf r then some r else some l) =
        some (if updOf l ≤ updOf r then r else l)
      by_cases hle : updOf l ≤ updOf r
      · rw [if_pos hle, if_pos hle]
      · rw [if_neg hle, if_neg hle]
    constructor
    · rw [Legacy.mergeArrays_eq]
      have hmem := Legacy.mapGet_mem (idOf r) _ _ hg1
      exact List.mem_map.mpr ⟨_, hmem, rfl⟩
    · intro x hx hxid
      rw [Legacy.mergeArrays_eq] at hx
      obtain ⟨p, hp, hpe⟩ := List.mem_map.mp hx
      have hpk : p.1 = idOf r := by
        rw [hwf1.2 p hp, hpe, hxid]
      have : Legacy.mapGet (idOf r) _ = some p.2 :=
        Legacy.mapGet_of_mem_nodup (idOf r) p.2 _ hwf1.1 (by
          rw [← hpk]
          exact hp)
      rw [hg1] at this
      rw [← hpe]
      exact (Option.some.inj this).symm
  · -- pullFromCloud keeps the remote copy outright
    intro now u status0 cs ls ns st rl ll hrl hll hids hlsn
    rw [pullFromCloud_ok_state]
    have hclean : ({ defaultPinLink rl with file_data := none } : Link) ∈
        stripFileData (ls.map defaultPinLink ++ st.links.filter (fun x =>
          !((ls.map defaultPinLink).any (fun q => q.id == x.id)))) := by
      refine List.mem_map.mpr ⟨defaultPinLink rl, ?_, rfl⟩
      exact List.mem_append_left _ (List.mem_map_of_mem _ hrl)
    refine ⟨hclean, ?_⟩
    intro x hx hxid
    obtain ⟨y, hy, hye⟩ := List.mem_map.mp hx
    have hyid : y.id = rl.id := by
      have : y.id = x.id := by rw [← hye]
      rw [this, hxid]
    rcases List.mem_append.mp hy with h1 | h2
    · obtain ⟨r0, hr0, hr0e⟩ := List.mem_map.mp h1
      have hr0id : r0.id = rl.id := by
        have : r0.id = y.id := by rw [← hr0e]; rfl
        rw [this, hyid]
      have : r0 = rl := unique_of_nodup_keys Link.id ls hlsn r0 rl hr0 hrl
        hr0id
      rw [← hye, ← hr0e, this]
    · exfalso
      have hfl := List.mem_filter.mp h2
      have hany : (ls.map defaultPinLink).any (fun q => q.id == y.id) =
          true := by
        refine List.any_eq_true.mpr ⟨defaultPinLink rl, ?_, ?_⟩
        · exact List.mem_map_of_mem _ hrl
        · show ((defaultPinLink rl).id == y.id) = true
          rw [beq_iff_eq]
          show rl.id = y.id
          rw [hyid]
      rw [hany] at hfl
      simp at hfl

/-- Witness for C1: the legacy merge keeps the strictly newer local copy,
while `pullFromCloud` keeps the remote copy of the same identity. -/
theorem merge_recency_witness :
    ((if c1Local.updated_at ≤ c1Remote.updated_at then c1Remote
        else c1Local) ∈
      Legacy.mergeArrays Link.id Link.updated_at [c1Local] [c1Remote]) ∧
    ({ defaultPinLink c1Remote with file_data := none } ∈
      (pullFromCloud 9 (some "u")
        { lastSync := none, status := .idle, message := "" }
        (.ok []) (.ok [c1Remote]) (.ok [])
        { links := [c1Local], categories := [],
          nots := [] }).state.links) := by
  have h := merge_recency Link.id Link.updated_at [c1Local] [c1Remote]
    c1Local c1Remote (by decide) (by decide)
    (List.mem_cons_self c1Local []) (List.mem_cons_self c1Remote []) rfl
  refine ⟨h.1.1, ?_⟩
  exact (h.2 9 "u" { lastSync := none, status := .idle, message := "" }
    [] [c1Remote] [] { links := [c1Local], categories := [], nots := [] }
    c1Remote c1Local (List.mem_cons_self c1Remote [])
    (List.mem_cons_self c1Local []) rfl (by decide)).1

/-! ## Claim C7: the sign-out transition and owner isolation -/

/-- No entity of owner `u0` is cached locally, and `u0` is not the current
session — the invariant that holds from a sign-out onward as long as `u0`
does not sign back in. -/
def NoOwnerTrace (u0 : String) (s : SysState) : Prop :=
  s.cachedUserId ≠ some u0 ∧
  (∀ l ∈ s.links, l.user_id ≠ some u0) ∧
  (∀ c ∈ s.categories, c.user_id ≠ some u0) ∧
  (∀ n ∈ s.nots, n.user_id ≠ some u0)

theorem syncLinksIfAuthed_proj (s : SysState) (ch : List Link) :
    (syncLinksIfAuthed s ch).links = s.links ∧
    (syncLinksIfAuthed s ch).categories = s.categories ∧
    (syncLinksIfAuthed s ch).nots = s.nots ∧
    (syncLinksIfAuthed s ch).cachedUserId = s.cachedUserId := by
  unfold syncLinksIfAuthed
  cases hc : s.cachedUserId with
  | none => exact ⟨rfl, rfl, rfl, hc⟩
  | some u => exact ⟨rfl, rfl, rfl, rfl⟩

theorem syncCatsIfAuthed_proj (s : SysState) (ch : List Category) :
    (syncCatsIfAuthed s ch).links = s.links ∧
    (syncCatsIfAuthed s ch).categories = s.categories ∧
    (syncCatsIfAuthed s ch).nots = s.nots ∧
    (syncCatsIfAuthed s ch).cachedUserId = s.cachedUserId := by
  unfold syncCatsIfAuthed
  cases hc : s.cachedUserId with
  | none => exact ⟨rfl, rfl, rfl, hc⟩
  | some u => exact ⟨rfl, rfl, rfl, rfl⟩

theorem syncNotesIfAuthed_proj (s : SysState) (ch : List Note) :
    (syncNotesIfAuthed s ch).links = s.links ∧
    (syncNotesIfAuthed s ch).categories = s.categories ∧
    (syncNotesIfAuthed s ch).nots = s.nots ∧
    (syncNotesIfAuthed s ch).cachedUserId = s.cachedUserId := by
  unfold syncNotesIfAuthed
  cases hc : s.cachedUserId with
  | none => exact ⟨rfl, rfl, rfl, hc⟩
  | some u => exact ⟨rfl, rfl, rfl, rfl⟩

theorem noOwner_syncLinks (u0 : String) (s : SysState) (ch : List Link)
    (h : NoOwnerTrace u0 s) : NoOwnerTrace u0 (syncLinksIfAuthed s ch) := by
  obtain ⟨h1, h2, h3, h4⟩ := h
  have hp := syncLinksIfAuthed_proj s ch
  refine ⟨?_, ?_, ?_, ?_⟩
  · rw [hp.2.2.2]; exact h1
  · rw [hp.1]; exact h2
  · rw [hp.2.1]; exact h3
  · rw [hp.2.2.1]; exact h4

theorem noOwner_syncCats (u0 : String) (s : SysState) (ch : List Category)
    (h : NoOwnerTrace u0 s) : NoOwnerTrace u0 (syncCatsIfAuthed s ch) := by
  obtain ⟨h1, h2, h3, h4⟩ := h
  have hp := syncCatsIfAuthed_proj s ch
  refine ⟨?_, ?_, ?_, ?_⟩
  · rw [hp.2.2.2]; exact h1
  · rw [hp.1]; exact h2
  · rw [hp.2.1]; exact h3
  · rw [hp.2.2.1]; exact h4

theorem noOwner_syncNotes (u0 : String) (s : SysState) (ch : List Note)
    (h : NoOwnerTrace u0 s) : NoOwnerTrace u0 (syncNotesIfAuthed s ch) := by
  obtain ⟨h1, h2, h3, h4⟩ := h
  have hp := syncNotesIfAuthed_proj s ch
  refine ⟨?_, ?_, ?_, ?_⟩
  · rw [hp.2.2.2]; exact h1
  · rw [hp.1]; exact h2
  · rw [hp.2.1]; exact h3
  · rw [hp.2.2.1]; exact h4

theorem userid_mem_strip (l : List Link) (x : Link)
    (hx : x ∈ stripFileData l) : ∃ y ∈ l, x.user_id = y.user_id := by
  obtain ⟨y, hy, he⟩ := List.mem_map.mp hx
  exact ⟨y, hy, by rw [← he]⟩

theorem forall_mem_updateFirst (p : α → Bool) (f : α → α) (P : α → Prop)
    (l : List α) (hP : ∀ y ∈ l, P y) (hf : ∀ y, P y → P (f y)) :
    ∀ x ∈ updateFirst p f l, P x := by
  intro x hx
  rcases mem_of_mem_updateFirst p f x l hx with h | ⟨y, hy, _, he⟩
  · exact hP x h
  · rw [he]
    exact hf y (hP y hy)

theorem forall_mem_reorderFold_fst (key : α → String) (g : Nat → α → α)
    (P : α → Prop) (hg : ∀ i y, P y → P (g i y)) :
    ∀ (pairs : List (Nat × String)) (acc : List α × List α),
      (∀ y ∈ acc.1, P y) →
      ∀ x ∈ (pairs.foldl (reorderStep key g) acc).1, P x := by
  intro pairs
  induction pairs with
  | nil => intro acc h x hx; exact h x hx
  | cons hd tl ih =>
      intro acc h
      rw [List.foldl_cons]
      refine ih _ ?_
      intro y hy
      rw [reorderStep_fst] at hy
      exact forall_mem_updateFirst _ _ P acc.1 h (fun z hz => hg hd.1 z hz)
        y hy

/-- The merged state produced by a successful pull has no entity of an
owner absent from both the fetch results and the prior local state. -/
theorem pull_state_no_owner (u0 : String) (now : Nat) (u : String)
    (status0 : SyncStatus) (cs : List Category) (ls : List Link)
    (ns : List Note) (st : LocalState)
    (hcs : ∀ c ∈ cs, c.user_id ≠ some u0)
    (hls : ∀ l ∈ ls, l.user_id ≠ some u0)
    (hns : ∀ n ∈ ns, n.user_id ≠ some u0)
    (hstL : ∀ l ∈ st.links, l.user_id ≠ some u0)
    (hstC : ∀ c ∈ st.categories, c.user_id ≠ some u0)
    (hstN : ∀ n ∈ st.nots, n.user_id ≠ some u0) :
    (∀ l ∈ (pullFromCloud now (some u) status0 (.ok cs) (.ok ls) (.ok ns)
        st).state.links, l.user_id ≠ some u0) ∧
    (∀ c ∈ (pullFromCloud now (some u) status0 (.ok cs) (.ok ls) (.ok ns)
        st).state.categories, c.user_id ≠ some u0) ∧
    (∀ n ∈ (pullFromCloud now (some u) status0 (.ok cs) (.ok ls) (.ok ns)
        st).state.nots, n.user_id ≠ some u0) := by
  rw [pullFromCloud_ok_state]
  refine ⟨?_, ?_, ?_⟩
  · intro x hx
    obtain ⟨y, hy, hxy⟩ := userid_mem_strip _ x hx
    rw [hxy]
    rcases List.mem_append.mp hy with h1 | h1
    · obtain ⟨r, hr, hre⟩ := List.mem_map.mp h1
      have : y.user_id = r.user_id := by rw [← hre]; rfl
      rw [this]
      exact hls r hr
    · exact hstL y (List.mem_filter.mp h1).1
  · intro x hx
    rcases List.mem_append.mp hx with h1 | h1
    · obtain ⟨r, hr, hre⟩ := List.mem_map.mp h1
      have : x.user_id = r.user_id := by rw [← hre]; rfl
      rw [this]
      exact hcs r hr
    · exact hstC x (List.mem_filter.mp h1).1
  · intro x hx
    rcases List.mem_append.mp hx with h1 | h1
    · exact hns x h1
    · exact hstN x (List.mem_filter.mp h1).1

theorem noOwner_pullStep (u0 : String) (now : Nat) (u : String)
    (hu : u ≠ u0) (s : SysState) (h : NoOwnerTrace u0 s) :
    NoOwnerTrace u0 (pullStep now u s) := by
  obtain ⟨h1, h2, h3, h4⟩ := h
  have hres := pull_state_no_owner u0 now u
    { lastSync := none, status := .idle, message := "" }
    (s.remoteCats.filter (fun c => c.user_id == some u))
    (s.remoteLinks.filter (fun l => l.user_id == some u))
    (s.remoteNotes.filter (fun n => n.user_id == some u))
    { links := s.links, categories := s.categories, nots := s.nots }
    (fun c hc => by
      have := (List.mem_filter.mp hc).2
      rw [beq_iff_eq.mp this]
      intro hcon
      exact hu (Option.some.inj hcon))
    (fun l hl => by
      have := (List.mem_filter.mp hl).2
      rw [beq_iff_eq.mp this]
      intro hcon
      exact hu (Option.some.inj hcon))
    (fun n hn => by
      have := (List.mem_filter.mp hn).2
      rw [beq_iff_eq.mp this]
      intro hcon
      exact hu (Option.some.inj hcon))
    h2 h3 h4
  exact ⟨h1, hres.1, hres.2.1, hres.2.2⟩

theorem step_no_owner (u0 : String) (a : Act) (s : SysState)
    (hInv : NoOwnerTrace u0 s) (ha : a ≠ Act.authChange (some u0)) :
    NoOwnerTrace u0 (step a s) := by
  obtain ⟨hcache, hL, hC, hN⟩ := hInv
  cases a with
  | authChange sess =>
      have hsess : sess ≠ some u0 := fun hc => ha (by rw [hc])
      show NoOwnerTrace u0
        (if sess = none ∧ s.cachedUserId ≠ none then
          { s with cachedUserId := sess, links := [], categories := [],
                   nots := [] }
         else { s with cachedUserId := sess })
      by_cases hcond : sess = none ∧ s.cachedUserId ≠ none
      · rw [if_pos hcond]
        refine ⟨hsess, ?_, ?_, ?_⟩
        · intro x hx; exact absurd hx (List.not_mem_nil x)
        · intro x hx; exact absurd hx (List.not_mem_nil x)
        · intro x hx; exact absurd hx (List.not_mem_nil x)
      · rw [if_neg hcond]
        exact ⟨hsess, hL, hC, hN⟩
  | addLinkA now newId url ty sub catId nm fn fu =>
      show NoOwnerTrace u0 (syncLinksIfAuthed
        { s with links :=
          (addLink now newId s.cachedUserId url ty sub catId nm fn fu
            s.links).2 }
        [(addLink now newId s.cachedUserId url ty sub catId nm fn fu
          s.links).1])
      refine noOwner_syncLinks u0 _ _ ⟨hcache, ?_, hC, hN⟩
      intro x hx
      obtain ⟨y, hy, hxy⟩ := userid_mem_strip _ x hx
      rw [hxy]
      rcases List.mem_append.mp hy with h1 | h1
      · exact hL y h1
      · have : y = (addLink now newId s.cachedUserId url ty sub catId nm fn
            fu s.links).1 := List.mem_singleton.mp h1
        rw [this]
        exact hcache
  | addCategoryA now newId nm ty sub color =>
      show NoOwnerTrace u0 (syncCatsIfAuthed
        { s with categories :=
          (addCategory now newId s.cachedUserId nm ty sub color
            s.categories).2 }
        [(addCategory now newId s.cachedUserId nm ty sub color
          s.categories).1])
      refine noOwner_syncCats u0 _ _ ⟨hcache, hL, ?_, hN⟩
      intro x hx
      rcases List.mem_append.mp hx with h1 | h1
      · exact hC x h1
      · have : x = (addCategory now newId s.cachedUserId nm ty sub color
            s.categories).1 := List.mem_singleton.mp h1
        rw [this]
        exact hcache
  | addNoteA now newId title body =>
      show NoOwnerTrace u0 (syncNotesIfAuthed
        { s with nots :=
          (addNote now newId s.cachedUserId title body s.nots).2 }
        [(addNote now newId s.cachedUserId title body s.nots).1])
      refine noOwner_syncNotes u0 _ _ ⟨hcache, hL, hC, ?_⟩
      intro x hx
      rcases List.mem_append.mp hx with h1 | h1
      · exact hN x h1
      · have : x = (addNote now newId s.cachedUserId title body s.nots).1 :=
          List.mem_singleton.mp h1
        rw [this]
        exact hcache
  | updateLinkA now id u =>
      show NoOwnerTrace u0 (syncLinksIfAuthed
        { s with links := stripFileData (updateFirstR (fun l => l.id == id)
            (applyLinkUpdates u now) s.links).1 }
        (updateFirstR (fun l => l.id == id) (applyLinkUpdates u now)
          s.links).2.toList)
      refine noOwner_syncLinks u0 _ _ ⟨hcache, ?_, hC, hN⟩
      intro x hx
      have heq : (updateFirstR (fun l => l.id == id)
          (applyLinkUpdates u now) s.links).1 =
          updateFirst (fun l => l.id == id) (applyLinkUpdates u now)
            s.links := by
        rw [updateFirstR_eq]
      rw [heq] at hx
      obtain ⟨y, hy, hxy⟩ := userid_mem_strip _ x hx
      rw [hxy]
      exact forall_mem_updateFirst (fun l => l.id == id)
        (applyLinkUpdates u now) (fun z => z.user_id ≠ some u0)
        s.links hL (fun z hz => hz) y hy
  | updateCategoryA now id u =>
      show NoOwnerTrace u0 (syncCatsIfAuthed
        { s with categories :=
          (updateFirstR (fun c => c.id == id) (applyCategoryUpdates u now)
            s.categories).1 }
        (updateFirstR (fun c => c.id == id) (applyCategoryUpdates u now)
          s.categories).2.toList)
      refine noOwner_syncCats u0 _ _ ⟨hcache, hL, ?_, hN⟩
      intro x hx
      have heq : (updateFirstR (fun c => c.id == id)
          (applyCategoryUpdates u now) s.categories).1 =
          updateFirst (fun c => c.id == id) (applyCategoryUpdates u now)
            s.categories := by
        rw [updateFirstR_eq]
      rw [heq] at hx
      exact forall_mem_updateFirst (fun c => c.id == id)
        (applyCategoryUpdates u now) (fun z => z.user_id ≠ some u0)
        s.categories hC (fun z hz => hz) x hx
  | updateNoteA now id u =>
      show NoOwnerTrace u0 (syncNotesIfAuthed
        { s with nots :=
          (updateFirstR (fun n => n.id == id) (applyNoteUpdates u now)
            s.nots).1 }
        (updateFirstR (fun n => n.id == id) (applyNoteUpdates u now)
          s.nots).2.toList)
      refine noOwner_syncNotes u0 _ _ ⟨hcache, hL, hC, ?_⟩
      intro x hx
      have heq : (updateFirstR (fun n => n.id == id)
          (applyNoteUpdates u now) s.nots).1 =
          updateFirst (fun n => n.id == id) (applyNoteUpdates u now)
            s.nots := by
        rw [updateFirstR_eq]
      rw [heq] at hx
      exact forall_mem_updateFirst (fun n => n.id == id)
        (applyNoteUpdates u now) (fun z => z.user_id ≠ some u0)
        s.nots hN (fun z hz => hz) x hx
  | deleteLinkA now id =>
      show NoOwnerTrace u0 (syncLinksIfAuthed
        { s with links := stripFileData (updateFirstR (fun l => l.id == id)
            (fun l => { l with is_deleted := true, updated_at := now })
            s.links).1 }
        (updateFirstR (fun l => l.id == id)
          (fun l => { l with is_deleted := true, updated_at := now })
          s.links).2.toList)
      refine noOwner_syncLinks u0 _ _ ⟨hcache, ?_, hC, hN⟩
      intro x hx
      have heq : (updateFirstR (fun l => l.id == id)
          (fun l => { l with is_deleted := true, updated_at := now })
          s.links).1 =
          updateFirst (fun l => l.id == id)
            (fun l => { l with is_deleted := true, updated_at := now })
            s.links := by
        rw [updateFirstR_eq]
      rw [heq] at hx
      obtain ⟨y, hy, hxy⟩ := userid_mem_strip _ x hx
      rw [hxy]
      exact forall_mem_updateFirst (fun l => l.id == id)
        (fun l => { l with is_deleted := true, updated_at := now })
        (fun z => z.user_id ≠ some u0)
        s.links hL (fun z hz => hz) y hy
  | deleteCategoryA now id =>
      show NoOwnerTrace u0 (syncCatsIfAuthed
        { s with categories :=
          (updateFirstR (fun c => c.id == id)
            (fun c => { c with is_deleted := true, updated_at := now })
            s.categories).1 }
        (updateFirstR (fun c => c.id == id)
          (fun c => { c with is_deleted := true, updated_at := now })
          s.categories).2.toList)
      refine noOwner_syncCats u0 _ _ ⟨hcache, hL, ?_, hN⟩
      intro x hx
      have heq : (updateFirstR (fun c => c.id == id)
          (fun c => { c with is_deleted := true, updated_at := now })
          s.categories).1 =
          updateFirst (fun c => c.id == id)
            (fun c => { c with is_deleted := true, updated_at := now })
            s.categories := by
        rw [updateFirstR_eq]
      rw [heq] at hx
      exact forall_mem_updateFirst (fun c => c.id == id)
        (fun c => { c with is_deleted := true, updated_at := now })
        (fun z => z.user_id ≠ some u0)
        s.categories hC (fun z hz => hz) x hx
  | deleteNoteA now id =>
      show NoOwnerTrace u0 (syncNotesIfAuthed
        { s with nots :=
          (updateFirstR (fun n => n.id == id)
            (fun n => { n with is_deleted := true, updated_at := now })
            s.nots).1 }
        (updateFirstR (fun n => n.id == id)
          (fun n => { n with is_deleted := true, updated_at := now })
          s.nots).2.toList)
      refine noOwner_syncNotes u0 _ _ ⟨hcache, hL, hC, ?_⟩
      intro x hx
      have heq : (updateFirstR (fun n => n.id == id)
          (fun n => { n with is_deleted := true, updated_at := now })
          s.nots).1 =
          updateFirst (fun n => n.id == id)
            (fun n => { n with is_deleted := true, updated_at := now })
            s.nots := by
        rw [updateFirstR_eq]
      rw [heq] at hx
      exact forall_mem_updateFirst (fun n => n.id == id)
        (fun n => { n with is_deleted := true, updated_at := now })
        (fun z => z.user_id ≠ some u0)
        s.nots hN (fun z hz => hz) x hx
  | reorderLinksA now ids =>
      show NoOwnerTrace u0 (syncLinksIfAuthed
        { s with links := (reorderLinks now ids s.links).1 }
        (reorderLinks now ids s.links).2)
      refine noOwner_syncLinks u0 _ _ ⟨hcache, ?_, hC, hN⟩
      intro x hx
      obtain ⟨y, hy, hxy⟩ := userid_mem_strip _ x hx
      rw [hxy]
      exact forall_mem_reorderFold_fst Link.id
        (fun i l => { l with position := some (Int.ofNat i), updated_at := now })
        (fun z => z.user_id ≠ some u0) (fun i z hz => hz) ids.enum
        (s.links, []) hL y hy
  | reorderCategoriesA now ids =>
      show NoOwnerTrace u0 (syncCatsIfAuthed
        { s with categories := (reorderCategories now ids s.categories).1 }
        (reorderCategories now ids s.categories).2)
      refine noOwner_syncCats u0 _ _ ⟨hcache, hL, ?_, hN⟩
      intro x hx
      exact forall_mem_reorderFold_fst Category.id
        (fun i c => { c with position := some (Int.ofNat i), updated_at := now })
        (fun z => z.user_id ≠ some u0) (fun i z hz => hz) ids.enum
        (s.categories, []) hC x hx
  | pull now =>
      cases hcu : s.cachedUserId with
      | none =>
          have hstep : step (Act.pull now) s = s := by
            simp only [step]
            rw [hcu]
          rw [hstep]
          exact ⟨hcache, hL, hC, hN⟩
      | some u =>
          have hu : u ≠ u0 := by
            intro hc
            exact hcache (by rw [hcu, hc])
          have hstep : step (Act.pull now) s = pullStep now u s := by
            simp only [step]
            rw [hcu]
          rw [hstep]
          exact noOwner_pullStep u0 now u hu s ⟨hcache, hL, hC, hN⟩

theorem run_no_owner (u0 : String) :
    ∀ (acts : List Act) (s : SysState), NoOwnerTrace u0 s →
      (∀ a ∈ acts, a ≠ Act.authChange (some u0)) →
      NoOwnerTrace u0 (run acts s) := by
  intro acts
  induction acts with
  | nil => intro s h _; exact h
  | cons a tl ih =>
      intro s h hacts
      exact ih (step a s)
        (step_no_owner u0 a s h (hacts a (List.mem_cons_self a tl)))
        (fun b hb => hacts b (List.mem_cons_of_mem a hb))

theorem userid_mem_getLinks (l : List Link) (x : Link)
    (hx : x ∈ getLinks l) : ∃ y ∈ l, x.user_id = y.user_id := by
  obtain ⟨y, hy, he⟩ := List.mem_map.mp hx
  exact ⟨y, (List.mem_filter.mp hy).1, by rw [← he]⟩

theorem userid_mem_getCategories (l : List Category) (x : Category)
    (hx : x ∈ getCategories l) : ∃ y ∈ l, x.user_id = y.user_id := by
  obtain ⟨y, hy, he⟩ := List.mem_map.mp hx
  exact ⟨y, (List.mem_filter.mp hy).1, by rw [← he]⟩

/-- Claim C7: a transition from an authenticated owner to no owner erases
all three local partitions (every `get()` projection becomes empty), and
along any subsequent run of repository mutations, reconciliation passes
and session transitions in which that owner never signs back in, no state
— raw partitions or `get()` projections — ever holds an entity stamped
with the signed-out owner. -/
theorem signout_erases_and_isolates (s : SysState) (u0 : String)
    (hu : s.cachedUserId = some u0) (acts : List Act)
    (hacts : ∀ a ∈ acts, a ≠ Act.authChange (some u0)) :
    ((step (Act.authChange none) s).links = [] ∧
     (step (Act.authChange none) s).categories = [] ∧
     (step (Act.authChange none) s).nots = [] ∧
     getLinks (step (Act.authChange none) s).links = [] ∧
     getCategories (step (Act.authChange none) s).categories = [] ∧
     getNotes (step (Act.authChange none) s).nots = []) ∧
    ((∀ l ∈ (run acts (step (Act.authChange none) s)).links,
        l.user_id ≠ some u0) ∧
     (∀ c ∈ (run acts (step (Act.authChange none) s)).categories,
        c.user_id ≠ some u0) ∧
     (∀ n ∈ (run acts (step (Act.authChange none) s)).nots,
        n.user_id ≠ some u0) ∧
     (∀ l ∈ getLinks (run acts (step (Act.authChange none) s)).links,
        l.user_id ≠ some u0) ∧
     (∀ c ∈ getCategories
          (run acts (step (Act.authChange none) s)).categories,
        c.user_id ≠ some u0) ∧
     (∀ n ∈ getNotes (run acts (step (Act.authChange none) s)).nots,
        n.user_id ≠ some u0)) := by
  have hcond : (none : Option String) = none ∧ s.cachedUserId ≠ none := by
    refine ⟨rfl, ?_⟩
    rw [hu]
    intro hc
    cases hc
  have hstep : step (Act.authChange none) s =
      { s with cachedUserId := none, links := [], categories := [],
               nots := [] } := by
    simp only [step]
    rw [if_pos (show True ∧ s.cachedUserId ≠ none from ⟨trivial, hcond.2⟩)]
  have hInv1 : NoOwnerTrace u0 (step (Act.authChange none) s) := by
    rw [hstep]
    refine ⟨?_, ?_, ?_, ?_⟩
    · intro hc; cases hc
    · intro x hx; exact absurd hx (List.not_mem_nil x)
    · intro x hx; exact absurd hx (List.not_mem_nil x)
    · intro x hx; exact absurd hx (List.not_mem_nil x)
  have hrun := run_no_owner u0 acts (step (Act.authChange none) s) hInv1
    hacts
  constructor
  · rw [hstep]
    exact ⟨rfl, rfl, rfl, rfl, rfl, rfl⟩
  · refine ⟨hrun.2.1, hrun.2.2.1, hrun.2.2.2, ?_, ?_, ?_⟩
    · intro x hx
      obtain ⟨y, hy, hxy⟩ := userid_mem_getLinks _ x hx
      rw [hxy]
      exact hrun.2.1 y hy
    · intro x hx
      obtain ⟨y, hy, hxy⟩ := userid_mem_getCategories _ x hx
      rw [hxy]
      exact hrun.2.2.1 y hy
    · intro x hx
      have : x ∈ (run acts (step (Act.authChange none) s)).nots := by
        unfold getNotes at hx
        exact (List.mem_filter.mp hx).1
      exact hrun.2.2.2 x this

/-- A concrete system state used by the C7 witness: the owner "alice" is
signed in with one cached link and one remote row. -/
def cexSys : SysState :=
  { links := [{ baseLink with user_id := some "alice" }],
    categories := [{ baseCat with user_id := some "alice" }],
    nots := [{ baseNote with user_id := some "alice" }],
    cachedUserId := some "alice",
    remoteLinks := [{ baseLink with user_id := some "alice" }],
    remoteCats := [], remoteNotes := [] }

/-- Witness for C7: after alice signs out, the store is erased, and after
bob signs in, pulls, and adds a link, no partition holds an entity of
alice. -/
theorem signout_erases_and_isolates_witness :
    ((step (Act.authChange none) cexSys).links = [] ∧
     getLinks (step (Act.authChange none) cexSys).links = []) ∧
    (∀ l ∈ (run [Act.authChange (some "bob"), Act.pull 3,
        Act.addLinkA 4 "n1" "https://b" .Web .NoneSub none none none none]
        (step (Act.authChange none) cexSys)).links,
      l.user_id ≠ some "alice") := by
  have h := signout_erases_and_isolates cexSys "alice" rfl
    [Act.authChange (some "bob"), Act.pull 3,
     Act.addLinkA 4 "n1" "https://b" .Web .NoneSub none none none none]
    (by decide)
  exact ⟨⟨h.1.1, h.1.2.2.2.1⟩, h.2.1⟩

end Bookmarkly
